import Mathlib

/-!
# Verification of the `bibfiles_db` identity-resolution engine

A shallow embedding of `src/pyglottolog/references/bibfiles_db.py`: the
SQLite-backed store of bib files, entries and field values, the merged-entry
view, the `distance` measure, the hashing pass, the split/merge/new-id
resolver (`assign_ids`), the staleness check and the windowed iteration.

SQL three-valued comparisons are embedded explicitly: a column-to-column
comparison involving a NULL operand is never satisfied, while comparisons
against a literal NULL (`== sa.null()` / `!= sa.null()`) are rendered by
SQLAlchemy as `IS NULL` / `IS NOT NULL` and are embedded as `Option.isNone` /
`Option.isSome` tests.
-/

namespace BibfilesDb

/-- SQL `left == right` on two nullable integer columns: satisfied only when
both operands are non-NULL and equal. -/
def sqlEqNat (a b : Option Nat) : Bool :=
  match a, b with
  | some x, some y => x == y
  | _, _ => false

/-- SQL `left != right` on two nullable integer columns: satisfied only when
both operands are non-NULL and different. -/
def sqlNeNat (a b : Option Nat) : Bool :=
  match a, b with
  | some x, some y => x != y
  | _, _ => false

/-- SQL `left == right` on two nullable text columns. -/
def sqlEqStr (a b : Option String) : Bool :=
  match a, b with
  | some x, some y => x == y
  | _, _ => false

/-- SQL `left != right` on two nullable text columns. -/
def sqlNeStr (a b : Option String) : Bool :=
  match a, b with
  | some x, some y => x != y
  | _, _ => false

/-! ### SQLite NUMERIC affinity on text operands

The comparison `Entry.id == Entry.hash` inside `Entry.onetoone` compares an
INTEGER-affinity column against a TEXT-affinity column, so SQLite applies
NUMERIC affinity to the text operand before comparing: the text is
converted when — after surrounding whitespace — it is a well-formed integer
or real literal (optional sign, digits with optional decimal point, digits
on at least one side of the point, optional exponent).  An integer literal
in the int64 range converts exactly; every other well-formed literal
converts to an IEEE binary64 double (underflow to zero, overflow to
infinity, which equals no integer), and the integer-against-double
comparison itself is exact.  We embed the double conversion as correct
rounding to nearest, ties to even, of the exact decimal value; SQLite
documents the text-to-real conversion as lossy beyond 15 significant
digits, where its exact rounding is build-dependent. -/

/-- Decimal digit test by codepoint. -/
def isDigitC (c : Char) : Bool := 47 < c.toNat && c.toNat < 58

/-- The whitespace SQLite skips around a numeric text (space, tab, newline,
vertical tab, form feed, carriage return). -/
def isSqlSpace (c : Char) : Bool :=
  c == ' ' || c == Char.ofNat 9 || c == Char.ofNat 10 || c == Char.ofNat 11 ||
  c == Char.ofNat 12 || c == Char.ofNat 13

/-- The value of a string of decimal digits. -/
def natOfDigits (l : List Char) : Nat :=
  l.foldl (fun a c => 10 * a + (c.toNat - 48)) 0

/-- The exponent part of a numeric literal: optional sign, then at least
one digit, consuming the whole remainder. -/
def parseExpDigits (l : List Char) : Option Int :=
  let p : Bool × List Char :=
    match l with
    | '+' :: t => (false, t)
    | '-' :: t => (true, t)
    | t => (false, t)
  if !p.2.isEmpty && p.2.all isDigitC then
    some (if p.1 then -(natOfDigits p.2 : Int) else (natOfDigits p.2 : Int))
  else none

/-- Apply a decimal exponent to an unsigned mantissa fraction, producing the
signed exact value as a numerator-denominator pair (real literal, so the
first component of the result is `false` = not an integer literal). -/
def scaleByTen (neg : Bool) (mnum mden : Nat) (z : Int) : Bool × Int × Nat :=
  let p : Nat × Nat :=
    if 0 ≤ z then (mnum * 10 ^ z.toNat, mden) else (mnum, mden * 10 ^ (-z).toNat)
  (false, if neg then -(p.1 : Int) else (p.1 : Int), p.2)

/-- Parse a SQLite well-formed integer or real literal (after stripping
surrounding whitespace).  Returns `(isIntegerLiteral, numerator,
denominator)` with the exact decimal value `numerator / denominator`, or
`none` when the text is not such a literal (in which case the original
TEXT value compares unequal to every integer). -/
def parseNumLit (s : String) : Option (Bool × Int × Nat) :=
  let cs := ((s.data.dropWhile isSqlSpace).reverse.dropWhile isSqlSpace).reverse
  let p : Bool × List Char :=
    match cs with
    | '+' :: t => (false, t)
    | '-' :: t => (true, t)
    | t => (false, t)
  let neg := p.1
  let ip := p.2.takeWhile isDigitC
  match p.2.dropWhile isDigitC with
  | [] =>
    if ip.isEmpty then none
    else some (true, if neg then -(natOfDigits ip : Int) else (natOfDigits ip : Int), 1)
  | '.' :: rest =>
    let fp := rest.takeWhile isDigitC
    if ip.isEmpty && fp.isEmpty then none
    else
      let mnum := natOfDigits ip * 10 ^ fp.length + natOfDigits fp
      let mden := 10 ^ fp.length
      match rest.dropWhile isDigitC with
      | [] => some (false, if neg then -(mnum : Int) else (mnum : Int), mden)
      | c :: rest2 =>
        if c == 'e' || c == 'E' then (parseExpDigits rest2).map (scaleByTen neg mnum mden)
        else none
  | c :: rest =>
    if (c == 'e' || c == 'E') && !ip.isEmpty then
      (parseExpDigits rest).map (scaleByTen neg (natOfDigits ip) 1)
    else none

/-- Fueled binary logarithm (the fuel bounds the recursion; `n` itself
always suffices), evaluating by kernel reduction. -/
def log2Aux : Nat → Nat → Nat
  | 0, _ => 0
  | fuel + 1, n => if n ≤ 1 then 0 else log2Aux fuel (n / 2) + 1

/-- `Nat.log2` as a kernel-reducible function. -/
def natLog2 (n : Nat) : Nat := log2Aux n n

/-- Whether `2 ^ e ≤ a / d` (exact, by cross-multiplication). -/
def pow2LE (e : Int) (a d : Nat) : Bool :=
  if 0 ≤ e then decide (2 ^ e.toNat * d ≤ a) else decide (d ≤ a * 2 ^ (-e).toNat)

/-- Round the non-negative fraction `nn / dd` to the nearest natural
number, ties to even. -/
def roundHalfEvenNat (nn dd : Nat) : Nat :=
  let q := nn / dd
  let r := nn % dd
  if 2 * r < dd then q
  else if dd < 2 * r then q + 1
  else if q % 2 == 0 then q else q + 1

/-- Whether `k * 2 ^ shift` exceeds the largest finite binary64 value
`(2 ^ 53 - 1) * 2 ^ 971`. -/
def overMax (k : Nat) (shift : Int) : Bool :=
  if 971 ≤ shift then decide (2 ^ 53 - 1 < k * 2 ^ (shift - 971).toNat)
  else decide ((2 ^ 53 - 1) * 2 ^ (971 - shift).toNat < k)

/-- Round the exact rational `num / den` to the nearest IEEE binary64
double (ties to even, gradual underflow): `some (negative, k, shift)`
denotes the exact value `± k * 2 ^ shift`; `none` is overflow to infinity.
The binade is located through `Nat.log2` and corrected by one exact
comparison; the subnormal range is handled by clamping the grid exponent
at the minimum normal binade. -/
def roundDub (num : Int) (den : Nat) : Option (Bool × Nat × Int) :=
  let a := num.natAbs
  let e0 : Int := (natLog2 a : Int) - (natLog2 den)
  let e : Int := if pow2LE e0 a den then e0 else e0 - 1
  let shift : Int := max e (-1022) - 52
  let p : Nat × Nat :=
    if 0 ≤ shift then (a, den * 2 ^ shift.toNat) else (a * 2 ^ (-shift).toNat, den)
  let k := roundHalfEvenNat p.1 p.2
  if overMax k shift then none else some (decide (num < 0), k, shift)

/-- Whether the natural number `n` equals `k * 2 ^ shift` (exact). -/
def eqPow2 (n k : Nat) (shift : Int) : Bool :=
  if 0 ≤ shift then n == k * 2 ^ shift.toNat else n * 2 ^ (-shift).toNat == k

/-- SQL `id = hash` comparing a nullable INTEGER-affinity column against a
nullable TEXT-affinity column (the comparison appearing in
`Entry.onetoone`): SQLite applies NUMERIC affinity to the text operand (see
the section comment above), so the comparison is satisfied exactly when
both are non-NULL and the text is a well-formed numeric literal denoting
the integer — canonically or not: "5", "05", "+5", " 5 ", "5.0", "5e0" and
".5e1" all equal the id 5, while non-numeric text equals no id. -/
def idEqHash (a : Option Nat) (b : Option String) : Bool :=
  match a, b with
  | some n, some h =>
    match parseNumLit h with
    | none => false
    | some (isInt, num, den) =>
      if isInt ∧ -(2 ^ 63) ≤ num ∧ num ≤ 2 ^ 63 - 1 then num == (n : Int)
      else
        match roundDub num den with
        | none => false
        | some (neg, k, shift) =>
          if k == 0 then n == 0
          else if neg then false
          else eqPow2 n k shift
  | _, _ => false

/-- A parsed BibTeX field map (Python `dict` of field name to value),
represented as an association list with the dict's insertion order. -/
abbrev FieldMap := List (String × String)

/-- The key set of a field map (Python `dict.keys()`). -/
def keyFinset (m : FieldMap) : Finset String := (m.map Prod.fst).toFinset

/-- Field lookup, defaulting to the empty string; `distance` only consults
keys present in both maps. -/
def lookupD (m : FieldMap) (k : String) : String := (m.lookup k).getD ""

/-- The reserved field name holding a record's type tag. -/
def ENTRYTYPE : String := "ENTRYTYPE"

/-- The reserved field name holding a record's prior identifier. -/
def REF_ID_FIELD : String := "glottolog_ref_id"

/-- Fields whose merged value is the join of all distinct member values. -/
def UNION_FIELDS : List String := ["fn", "asjp_name", "isbn"]

/-- Fields dropped entirely from the merged view. -/
def IGNORE_FIELDS : List String := ["crossref", "numnote", "glotto_id"]

/-- The per-field weight of `distance`: the default `weight` dict
`{author: 3, year: 3, title: 3, ENTRYTYPE: 2}`, read with `.get(k, 1)`. -/
def fieldWeight (k : String) : ℚ :=
  if k = "author" then 3
  else if k = "year" then 3
  else if k = "title" then 3
  else if k = ENTRYTYPE then 2
  else 1

/-- Modelled from the spec: the per-field similarity ratio consumed from
`difflib.SequenceMatcher(...).ratio()`, which is outside this repository and
specified only at its interface — a pure "normalized alignment/edit-similarity
of the two string values, 1.0 for identical strings, 0.0 for completely
dissimilar", with range [0,1] and symmetric use.  We realise that interface
with the normalized size of the character-multiset intersection
(`2*|a ∩ b| / (|a| + |b|)`, and 1 on two empty strings). -/
def myRatio (a b : String) : ℚ :=
  let ma : Multiset Char := (a.toList : Multiset Char)
  let mb : Multiset Char := (b.toList : Multiset Char)
  if Multiset.card ma + Multiset.card mb = 0 then 1
  else 2 * (Multiset.card (ma ∩ mb) : ℚ) / ((Multiset.card ma + Multiset.card mb : ℕ) : ℚ)

/-- `distance(left, right)`: 0 when both maps are empty, 1 when they share no
keys, otherwise one minus the weighted average of the per-field similarity
ratios over the shared keys.  The ratio function `R` is the collaborator
parameter (`difflib` in the source). -/
def distance (R : String → String → ℚ) (left right : FieldMap) : ℚ :=
  if left = [] ∧ right = [] then 0
  else if keyFinset left ∩ keyFinset right = ∅ then 1
  else 1 - (∑ k ∈ keyFinset left ∩ keyFinset right,
              fieldWeight k * R (lookupD left k) (lookupD right k))
           / (∑ k ∈ keyFinset left ∩ keyFinset right, fieldWeight k)

/-! ## Executable lexicographic ordering

SQLite compares TEXT with binary collation (bytewise UTF-8, i.e. codepoint
order, the same order Python uses on `str`), and `ORDER BY` clauses combine
several columns lexicographically.  We realise every such ordering through a
key function into `List Int` compared lexicographically, which evaluates by
kernel reduction. -/

/-- Strict lexicographic comparison of integer lists. -/
def lltInt : List Int → List Int → Bool
  | _, [] => false
  | [], _ :: _ => true
  | x :: xs, y :: ys => if x < y then true else if y < x then false else lltInt xs ys

/-- The non-strict order induced on `α` by a sort key: `a` comes no later
than `b` when the key of `b` is not strictly below the key of `a`. -/
def keyLE (k : α → List Int) (a b : α) : Prop := lltInt (k b) (k a) = false

/-- The codepooint sequence of a string, as integers (binary collation). -/
def charInts (s : String) : List Int := s.toList.map (fun c => (c.toNat : Int))

/-! ## Data model: the three relations of the Store -/

/-- A row of the `file` table. -/
structure FileRow where
  pk : Nat
  name : String
  size : Nat
  mtime : Nat
  priority : Int
deriving DecidableEq, Repr

/-- A row of the `entry` table. -/
structure EntryRow where
  pk : Nat
  file_pk : Nat
  bibkey : String
  refid : Option Nat
  hash : Option String
  srefid : Option Nat
  id : Option Nat
deriving DecidableEq, Repr

/-- A row of the `value` table. -/
structure ValueRow where
  entry_pk : Nat
  field : String
  value : String
deriving DecidableEq, Repr

/-- The database. -/
structure DB where
  files : List FileRow
  entries : List EntryRow
  values : List ValueRow
deriving DecidableEq, Repr

/-- Point lookup of a file row by primary key (inner join `Entry`-`File`). -/
def fileOf (db : DB) (fpk : Nat) : Option FileRow :=
  db.files.find? (fun f => f.pk == fpk)

/-- A row of the select in `_merged_entrygrp`: field, value, joined file
name and priority, and the entry key. -/
structure GRow where
  field : String
  value : String
  priority : Int
  filename : String
  bibkey : String
deriving DecidableEq, Repr

/-- Sort key of `_merged_entrygrp`: `ORDER BY field, priority DESC,
filename, bibkey` (the `-1` markers terminate the variable-length string
components; they sort below every codepoint). -/
def rowKeyL (r : GRow) : List Int :=
  charInts r.field ++ [-1, -r.priority] ++ charInts r.filename ++ [-1] ++ charInts r.bibkey

/-- The row order of `_merged_entrygrp`. -/
def rowLE (r s : GRow) : Prop := keyLE rowKeyL r s

instance : DecidableRel rowLE := fun a b =>
  inferInstanceAs (Decidable (lltInt (rowKeyL b) (rowKeyL a) = false))

/-- The key group selector of `_merged_entrygrp` and `__getitem__`: an
`int` key selects by `Entry.refid`, a `str` key by `Entry.hash`. -/
inductive GrpKey where
  | byRefid (r : Nat)
  | byHash (h : String)
deriving DecidableEq, Repr

/-- Whether an entry row is selected by the key (comparison against a
non-NULL literal, so a NULL column never matches). -/
def grpKeyMatches (key : GrpKey) (e : EntryRow) : Bool :=
  match key with
  | .byRefid r => e.refid == some r
  | .byHash h => e.hash == some h

/-- The unordered join rows of the select in `_merged_entrygrp`. -/
def grpRowsUnsorted (db : DB) (key : GrpKey) : List GRow :=
  db.entries.flatMap (fun e =>
    if grpKeyMatches key e then
      match fileOf db e.file_pk with
      | some f => (db.values.filter (fun v => v.entry_pk == e.pk)).map
          (fun v => ⟨v.field, v.value, f.priority, f.name, e.bibkey⟩)
      | none => []
    else [])

/-- The ordered rows of the select in `_merged_entrygrp`. -/
def grpRows (db : DB) (key : GrpKey) : List GRow :=
  List.insertionSort rowLE (grpRowsUnsorted db key)

/-- `itertools.groupby` keyed on the field name: consecutive rows with equal
fields form one group. -/
def groupByField : List GRow → List (String × List GRow)
  | [] => []
  | r :: rs =>
    match groupByField rs with
    | [] => [(r.field, [r])]
    | (f, g) :: gs =>
      if r.field = f then (f, r :: g) :: gs else (r.field, [r]) :: (f, g) :: gs

/-- The grouped rows handed to `_merged_entry`. -/
def mergedGroups (db : DB) (key : GrpKey) : List (String × List GRow) :=
  groupByField (grpRows db key)

/-- Modelled from the spec: the order-preserving de-duplication helper
`pyglottolog.util.unique`, imported by `bibfiles_db` but not under `src/`;
it keeps the first occurrence of each item, preserving order — the
deterministic candidate order that the Stage-1 tie-break of the spec
(lowest hash first under the ascending SQL ordering) relies on. -/
def dedupFirstAux [DecidableEq α] (seen : List α) : List α → List α
  | [] => []
  | x :: xs =>
    if x ∈ seen then dedupFirstAux seen xs else x :: dedupFirstAux (x :: seen) xs

/-- First-occurrence de-duplication (see `dedupFirstAux`). -/
def dedupFirst [DecidableEq α] (l : List α) : List α := dedupFirstAux [] l

/-- The ascending codepoint order on strings used by Python `sorted` and by
SQLite `ORDER BY` on text. -/
def strLE (a b : String) : Prop := keyLE charInts a b

instance : DecidableRel strLE := fun a b =>
  inferInstanceAs (Decidable (lltInt (charInts b) (charInts a) = false))

/-- Python `sorted(<set>)`: de-duplicate, then sort ascending. -/
def sortedDedup (l : List String) : List String :=
  List.insertionSort strLE (dedupFirst l)

/-- `_compat.removesuffix(filename, ".bib")`. -/
def removeBibSuffix (s : String) : String :=
  if s.endsWith ".bib" then s.dropRight 4 else s

/-- The `", "` join of the merged-entry policy. -/
def sepJoin (l : List String) : String := String.intercalate ", " l

/-- `_merged_entry(grp, raw=True)`: per-field policy (head value, or the
joined de-duplicated values for union fields, ignored fields dropped), plus
the `src` and `srctrickle` provenance fields. -/
def mergedEntryRaw (grp : List (String × List GRow)) : FieldMap :=
  let fields : FieldMap := grp.filterMap (fun p =>
    if p.1 ∈ IGNORE_FIELDS then none
    else if p.1 ∈ UNION_FIELDS then
      some (p.1, sepJoin (dedupFirst (p.2.map (fun r => r.value))))
    else some (p.1, ((p.2.head?).map (fun r => r.value)).getD ""))
  let srcs := sortedDedup (grp.flatMap (fun p =>
    p.2.map (fun r => removeBibSuffix r.filename)))
  let trickles := sortedDedup (grp.flatMap (fun p =>
    p.2.map (fun r => removeBibSuffix r.filename ++ "#" ++ r.bibkey)))
  (fields.filter (fun kv => !(kv.1 == "src" || kv.1 == "srctrickle")))
    ++ [("src", sepJoin srcs), ("srctrickle", sepJoin trickles)]

/-- `_merged_entrygrp(conn, key, raw=True)`: `none` models the `KeyError`
raised on an empty group. -/
def mergedEntryGrp (db : DB) (key : GrpKey) : Option FieldMap :=
  match mergedGroups db key with
  | [] => none
  | grp => some (mergedEntryRaw grp)

/-- Strict codepoint order on strings (binary collation, as compared by
SQLite and Python). -/
def strLt (a b : String) : Prop := lltInt (charInts a) (charInts b) = true

/-- The concrete store of the C5 counterexample: two records with the same
hash, the higher-priority source carrying union-field value "b", the lower
carrying "a". -/
def dbC5 : DB :=
  { files := [⟨1, "a.bib", 10, 0, 5⟩, ⟨2, "b.bib", 10, 0, 1⟩],
    entries := [⟨1, 1, "k1", none, some "h", none, none⟩,
                ⟨2, 2, "k2", none, some "h", none, none⟩],
    values := [⟨1, "isbn", "b"⟩, ⟨2, "isbn", "a"⟩] }

/-! ## The Importer (`import_bibfiles`) -/

/-- One parsed record of a bib file: key, type tag and ordered field map. -/
structure BibEntry where
  key : String
  etype : String
  fields : FieldMap
deriving DecidableEq, Repr

/-- One source bib file: file metadata, priority and its parsed records. -/
structure Bibfile where
  fname : String
  size : Nat
  mtime : Nat
  priority : Int
  entries : List BibEntry
deriving DecidableEq, Repr

/-- The INTEGER-affinity conversion applied by SQLite when the textual
`glottolog_ref_id` field value is inserted into the integer `refid` column:
a decimal numeral parses to its value, anything else is not a valid row for
the checked positive-integer column (modelled as `none`). -/
def parseNat (s : String) : Option Nat :=
  if s.toList ≠ [] ∧ s.toList.all (fun c => c.isDigit) then
    some (s.toList.foldl (fun n c => n * 10 + (c.toNat - 48)) 0)
  else none

/-- The entry and value rows inserted for the records of one file:
`(file_pk, e.key, e.fields.get(ref_id_field))` per entry, then one value row
per `(ENTRYTYPE, e.type)` followed by all of `e.fields.items()` — the prior
identifier field is read with `.get`, not popped. -/
def importEntries (fpk : Nat) (epk0 : Nat) : List BibEntry → List EntryRow × List ValueRow
  | [] => ([], [])
  | e :: es =>
    (⟨epk0, fpk, e.key, (List.lookup REF_ID_FIELD e.fields).bind parseNat,
        none, none, none⟩
      :: (importEntries fpk (epk0 + 1) es).1,
     (((ENTRYTYPE, e.etype) :: e.fields).map
        (fun kv => (⟨epk0, kv.1, kv.2⟩ : ValueRow)))
      ++ (importEntries fpk (epk0 + 1) es).2)

/-- The sequential insertion of files, entries and values. -/
def importAux : Nat → Nat → List Bibfile → DB
  | _, _, [] => ⟨[], [], []⟩
  | fpk, epk, b :: bs =>
    ⟨(⟨fpk, b.fname, b.size, b.mtime, b.priority⟩ : FileRow)
        :: (importAux (fpk + 1) (epk + b.entries.length) bs).files,
     (importEntries fpk epk b.entries).1
        ++ (importAux (fpk + 1) (epk + b.entries.length) bs).entries,
     (importEntries fpk epk b.entries).2
        ++ (importAux (fpk + 1) (epk + b.entries.length) bs).values⟩

/-- `import_bibfiles(conn, bibfiles)`. -/
def import_bibfiles (bibfiles : List Bibfile) : DB := importAux 1 1 bibfiles

/-- The concrete bib file of the C4 counterexample: one record carrying a
prior identifier field. -/
def bfC4 : Bibfile :=
  ⟨"x.bib", 5, 0, 1, [⟨"k", "book", [("glottolog_ref_id", "7"), ("title", "T")]⟩]⟩

/-! ## Staleness check (`File.same_as`) and trickle-back (`Exportable.trickle`) -/

/-- The `ondisk` dict of `File.same_as`: file name to (size, mtime), later
duplicates overwriting earlier ones. -/
def ondiskMap (bibfiles : List Bibfile) (n : String) : Option (Nat × Nat) :=
  (bibfiles.reverse.find? (fun b => b.fname == n)).map (fun b => (b.size, b.mtime))

/-- The `indb` dict of `File.same_as` (file names are unique in the schema). -/
def indbMap (db : DB) (n : String) : Option (Nat × Nat) :=
  (db.files.reverse.find? (fun f => f.name == n)).map (fun f => (f.size, f.mtime))

/-- `File.same_as(conn, bibfiles)`: dict equality of `ondisk` and `indb` —
equal key sets with equal (size, mtime) values. -/
def same_as (db : DB) (bibfiles : List Bibfile) : Bool :=
  bibfiles.all (fun b => indbMap db b.fname == ondiskMap bibfiles b.fname)
    && db.files.all (fun f => ondiskMap bibfiles f.name == indbMap db f.name)

/-- The outcomes of `trickle` that abort the run. -/
inductive TrickleErr where
  | assertionFailed
  | stale
  | keyError
  | inconsistent
deriving DecidableEq, Repr

/-- One `glottolog_ref_id` overwrite performed by `trickle`. -/
structure WriteAction where
  filename : String
  bibkey : String
  newId : String
deriving DecidableEq, Repr

/-- `Entry.allid`: no entry has a NULL `id`. -/
def allidCheck (db : DB) : Bool := db.entries.all (fun e => e.id.isSome)

/-- The `changed` predicate of `trickle`:
`Entry.id != coalesce(Entry.refid, -1)` (NULL id never compares). -/
def entryChanged (e : EntryRow) : Bool :=
  match e.id with
  | none => false
  | some i =>
    match e.refid with
    | none => true
    | some r => i != r

/-- ASCII lowercasing as applied by SQLite `lower()`, as codepoints. -/
def lowerInts (s : String) : List Int :=
  s.toList.map (fun c =>
    ((if 65 ≤ c.toNat ∧ c.toNat ≤ 90 then c.toNat + 32 else c.toNat) : Int))

/-- `ORDER BY lower(Entry.bibkey)`. -/
def entryLowerLE (a b : EntryRow) : Prop := keyLE (fun e => lowerInts e.bibkey) a b

instance : DecidableRel entryLowerLE := fun a b =>
  inferInstanceAs (Decidable (lltInt (lowerInts b.bibkey) (lowerInts a.bibkey) = false))

/-- `ORDER BY File.name`. -/
def fileNameLE (a b : FileRow) : Prop := keyLE (fun f => charInts f.name) a b

instance : DecidableRel fileNameLE := fun a b =>
  inferInstanceAs (Decidable (lltInt (charInts b.name) (charInts a.name) = false))

/-- The per-entry loop body of `trickle` over the changed entries of one
file: look the record up by key, check the stored identifier equals the
Record's pre-resolution `refid` (`assert old == refid`), then overwrite. -/
def trickleEntries (bf : Bibfile) : List EntryRow → Except TrickleErr (List WriteAction)
  | [] => .ok []
  | e :: rest =>
    match bf.entries.find? (fun be => be.key == e.bibkey) with
    | none => .error .keyError
    | some be =>
      if List.lookup REF_ID_FIELD be.fields = e.refid.map (fun r => toString r) then
        match trickleEntries bf rest with
        | .error err => .error err
        | .ok ws => .ok ((⟨bf.fname, e.bibkey, toString (e.id.getD 0)⟩ : WriteAction) :: ws)
      else .error .inconsistent

/-- The writes of `trickle` for one file with changed entries. -/
def trickleFileWrites (db : DB) (bibfiles : List Bibfile) (f : FileRow) :
    Except TrickleErr (List WriteAction) :=
  match bibfiles.find? (fun b => b.fname == f.name) with
  | none => .error .keyError
  | some bf =>
      trickleEntries bf
        (List.insertionSort entryLowerLE
          (db.entries.filter (fun e => e.file_pk == f.pk && entryChanged e)))

/-- The files visited by `trickle`, in name order. -/
def trickleFiles (db : DB) : List FileRow :=
  List.insertionSort fileNameLE
    (db.files.filter (fun f => db.entries.any (fun e => e.file_pk == f.pk && entryChanged e)))

/-- The write loop of `trickle` over all files with changes. -/
def trickleAll (db : DB) (bibfiles : List Bibfile) :
    List FileRow → Except TrickleErr (List WriteAction)
  | [] => .ok []
  | f :: fs =>
    match trickleFileWrites db bibfiles f with
    | .error err => .error err
    | .ok ws =>
      match trickleAll db bibfiles fs with
      | .error err => .error err
      | .ok rest => .ok (ws ++ rest)

/-- `Exportable.trickle`: assert `Entry.allid`, then fail fatally on a stale
store (`RuntimeError`) BEFORE the write loop runs. -/
def trickle (db : DB) (bibfiles : List Bibfile) : Except TrickleErr (List WriteAction) :=
  if allidCheck db = false then .error .assertionFailed
  else if same_as db bibfiles = false then .error .stale
  else trickleAll db bibfiles (trickleFiles db)

/-- The C7 witness store and bib files: identical names, mtimes, but the
size of "a.bib" changed on disk (10 in the store, 11 on disk). -/
def dbC7 : DB :=
  { files := [⟨1, "a.bib", 10, 0, 1⟩],
    entries := [⟨1, 1, "k", some 1, some "h", some 1, some 1⟩],
    values := [] }

/-! ## Windowed iteration (`Entry.windowed`) -/

/-- Bounded-size partitioning (`Result.partitions(size)`), fuelled by the
list length so that it evaluates by kernel reduction. -/
def chunksAux (n : Nat) : Nat → List Nat → List (List Nat)
  | _, [] => []
  | 0, _ :: _ => []
  | fuel + 1, l => l.take n :: chunksAux n fuel (l.drop n)

/-- The partitions of a list into runs of `n` (the last may be shorter). -/
def chunks (n : Nat) (l : List Nat) : List (List Nat) := chunksAux n l.length l

/-- `Entry.windowed(conn, key_column, size)`: the distinct values of the key
column, ascending, partitioned into runs of `size`, as (first, last)
pairs. -/
def windowed (vals : List Nat) (size : Nat) : List (Nat × Nat) :=
  (chunks size (List.insertionSort (· ≤ ·) (dedupFirst vals))).map
    (fun c => (c.headD 0, c.getLastD 0))

/-- The windows of `BaseDatabase.__iter__` over the `Entry.id` column
(iterated after the `Entry.allid` assertion, so over the non-NULL ids). -/
def windowedIds (db : DB) (size : Nat) : List (Nat × Nat) :=
  windowed (db.entries.filterMap (fun e => e.id)) size

/-- The C10 witness store: ids 3, 1, 2 and window size 2. -/
def dbC10 : DB :=
  { files := [],
    entries := [⟨1, 1, "a", none, none, none, some 3⟩,
                ⟨2, 1, "b", none, none, none, some 1⟩,
                ⟨3, 1, "c", none, none, none, some 2⟩],
    values := [] }

/-! ## The Fingerprint Generator (`generate_hashes`) -/

/-- The non-ENTRYTYPE value rows of one entry (the rows `select_bfv` yields
for its pk). -/
def nonTypeValues (db : DB) (epk : Nat) : List ValueRow :=
  db.values.filter (fun v => v.entry_pk == epk && v.field != ENTRYTYPE)

/-- The global title-token counter, as a multiset: `wrds` is the external
tokenizer collaborator. -/
def titleWords (db : DB) (wrds : String → List String) : Multiset String :=
  ((db.values.filter (fun v => v.field == "title")).flatMap (fun v => wrds v.value)
    : List String)

/-- The (first, last) pk windows of the hashing pass: per file in name
order, the pks of the entries of that file, ascending, in runs of
`chunksize`. -/
def hashWindows (db : DB) (chunksize : Nat) : List (Nat × Nat) :=
  (List.insertionSort fileNameLE db.files).flatMap (fun f =>
    (chunks chunksize
        (List.insertionSort (· ≤ ·)
          ((db.entries.filter (fun e => e.file_pk == f.pk)).map (fun e => e.pk)))).map
      (fun c => (c.headD 0, c.getLastD 0)))

/-- `generate_hashes(conn)`: assign `Entry.hash` to every entry that yields
at least one non-ENTRYTYPE value row within some pk window — an entry with
no such row is never touched by the update.  The fingerprint function
`keyid` (from `libmonster`) is the external collaborator consuming the
field map of the entry and the global word counter. -/
def generate_hashes (wrds : String → List String)
    (keyid : FieldMap → Multiset String → String)
    (chunksize : Nat) (db : DB) : DB :=
  { db with entries := db.entries.map (fun e =>
      if ((hashWindows db chunksize).any (fun w => w.1 ≤ e.pk && e.pk ≤ w.2)) = true
          ∧ nonTypeValues db e.pk ≠ [] then
        { e with hash := some (keyid
            ((nonTypeValues db e.pk).map (fun v => (v.field, v.value)))
            (titleWords db wrds)) }
      else e) }

/-! ## The Resolver (`assign_ids`)

Every SQL select of the resolver reads only columns its own updates do not
write (the split stage reads refid/hash and writes srefid; the merge stage
reads hash/srefid and writes id; the merged views read refid/hash/values),
so the lazily interleaved loops of the source are embedded as snapshot
computations over the stage input followed by a pointwise update. -/

/-- `Entry.allhash`: no entry has a NULL hash. -/
def allhashCheck (db : DB) : Bool := db.entries.all (fun e => e.hash.isSome)

/-- `Entry.onetoone`: no entry for which another row has the same hash but
a different id, or an id equal (under SQLite NUMERIC affinity) to this
entry's hash while the hashes differ.  The second disjunct compares the
integer `other.id` against the text `cls.hash` — exactly as the source
does. -/
def onetooneCheck (db : DB) : Bool :=
  !(db.entries.any (fun e => db.entries.any (fun o =>
      (sqlEqStr o.hash e.hash && sqlNeNat o.id e.id)
      || (idEqHash o.id e.hash && sqlNeStr o.hash e.hash))))

/-- Stage 0 per-entry update: `id=null, srefid=Entry.refid`. -/
def resetUpd (e : EntryRow) : EntryRow := { e with id := none, srefid := e.refid }

/-- Stage 0: `update(Entry).values(id=null, srefid=Entry.refid)`. -/
def resetStage (db : DB) : DB :=
  { db with entries := db.entries.map resetUpd }

/-- The distinct refids of `select_split` (entries whose refid also occurs
with a different hash), ascending — the groupby order of the split loop. -/
def splitRefids (db : DB) : List Nat :=
  dedupFirst (List.insertionSort (· ≤ ·) (db.entries.filterMap (fun e =>
    match e.refid, fileOf db e.file_pk with
    | some r, some _ =>
      if db.entries.any (fun o => sqlEqNat o.refid e.refid && sqlNeStr o.hash e.hash)
      then some r else none
    | _, _ => none)))

/-- A row of `select_split` restricted to one refid group. -/
structure SRow where
  hash : String
  filename : String
  bibkey : String
deriving DecidableEq, Repr

/-- `ORDER BY hash, filename, bibkey` within a split group. -/
def srowLE (a b : SRow) : Prop :=
  keyLE (fun x : SRow =>
    charInts x.hash ++ (-1) :: (charInts x.filename ++ (-1) :: charInts x.bibkey)) a b

instance : DecidableRel srowLE := fun _a _b =>
  inferInstanceAs (Decidable (lltInt _ _ = false))

/-- The ordered rows of one split group. -/
def splitRows (db : DB) (r : Nat) : List SRow :=
  List.insertionSort srowLE (db.entries.flatMap (fun e =>
    if e.refid == some r
        && db.entries.any (fun o => sqlEqNat o.refid e.refid && sqlNeStr o.hash e.hash) then
      match e.hash, fileOf db e.file_pk with
      | some h, some f => [⟨h, f.name, e.bibkey⟩]
      | _, _ => []
    else []))

/-- `unique(r.hash for r in group)`: the candidate hashes of a split group,
ascending (first occurrence under the hash-ascending row order). -/
def splitCands (db : DB) (r : Nat) : List String :=
  dedupFirst ((splitRows db r).map (fun x => x.hash))

/-- The running fold of Python `min(cand, key=f)`: the best-so-far is
replaced only on a strictly smaller key. -/
def argminFold (f : α → ℚ) : α → List α → α
  | best, [] => best
  | best, y :: ys => argminFold f (if f y < f best then y else best) ys

/-- Python `min(cand, key=f)`: the first element attaining the minimum. -/
def argminFirst (f : α → ℚ) : List α → Option α
  | [] => none
  | x :: xs => some (argminFold f x xs)

/-- The split decision for one refid group: the candidate hash whose merged
view is nearest to the merged view of the old refid group (`none` models
the `KeyError` of an empty merged view or the `ValueError` of an empty
candidate list, both fatal). -/
def chooseSplit (R : String → String → ℚ) (db : DB) (r : Nat) : Option String :=
  match mergedEntryGrp db (GrpKey.byRefid r) with
  | none => none
  | some old =>
    match (splitCands db r).mapM (fun h =>
        (mergedEntryGrp db (GrpKey.byHash h)).map (fun m => (h, distance R old m))) with
    | none => none
    | some cand => (argminFirst (fun p => p.2) cand).map (fun p => p.1)

/-- All split decisions, keyed by refid. -/
def splitChoices (R : String → String → ℚ) (db : DB) : Option (List (Nat × String)) :=
  (splitRefids db).mapM (fun r => (chooseSplit R db r).map (fun h => (r, h)))

/-- `update_split` per-entry update: clear `srefid` when the entry's refid
has a chosen winning hash and this entry's hash is not it. -/
def splitUpd (choices : List (Nat × String)) (e : EntryRow) : EntryRow :=
  match e.refid with
  | some r =>
    match List.lookup r choices with
    | some w => if sqlNeStr e.hash (some w) then { e with srefid := none } else e
    | none => e
  | none => e

/-- `update_split` for every group: clear `srefid` on the entries of the
group whose hash is not the chosen one. -/
def applySplit (choices : List (Nat × String)) (db : DB) : DB :=
  { db with entries := db.entries.map (splitUpd choices) }

/-- The `nosplits` assertion: no two entries share a (non-NULL) srefid
while differing in hash. -/
def nosplitsCheck (db : DB) : Bool :=
  !(db.entries.any (fun e => db.entries.any (fun o =>
      sqlEqNat o.srefid e.srefid && sqlNeStr o.hash e.hash)))

/-- The distinct hashes of `select_merge` (entries whose hash also occurs
with a different non-NULL srefid), ascending — the groupby order of the
merge loop. -/
def mergeHashes (db : DB) : List String :=
  dedupFirst (List.insertionSort strLE (db.entries.filterMap (fun e =>
    match e.hash, fileOf db e.file_pk with
    | some h, some _ =>
      if db.entries.any (fun o => sqlEqStr o.hash e.hash && sqlNeNat o.srefid e.srefid)
      then some h else none
    | _, _ => none)))

/-- A row of `select_merge` restricted to one hash group. -/
structure MRow where
  srefid : Nat
  filename : String
  bibkey : String
deriving DecidableEq, Repr

/-- `ORDER BY srefid DESC, filename, bibkey` within a merge group. -/
def mrowLE (a b : MRow) : Prop :=
  keyLE (fun x : MRow =>
    (-(x.srefid : Int)) :: (charInts x.filename ++ (-1) :: charInts x.bibkey)) a b

instance : DecidableRel mrowLE := fun _a _b =>
  inferInstanceAs (Decidable (lltInt _ _ = false))

/-- The ordered rows of one merge group (srefid descending). -/
def mergeRows (db : DB) (h : String) : List MRow :=
  List.insertionSort mrowLE (db.entries.flatMap (fun e =>
    if e.hash == some h
        && db.entries.any (fun o => sqlEqStr o.hash e.hash && sqlNeNat o.srefid e.srefid) then
      match e.srefid, fileOf db e.file_pk with
      | some s, some f => [⟨s, f.name, e.bibkey⟩]
      | _, _ => []
    else []))

/-- `unique(r.srefid for r in group)`: the candidate srefids of a merge
group, descending (first occurrence under the srefid-descending row
order). -/
def mergeCands (db : DB) (h : String) : List Nat :=
  dedupFirst ((mergeRows db h).map (fun x => x.srefid))

/-- The merge decision for one hash group: the candidate srefid whose old
merged view is nearest to the hash-based merged view; the first of
equidistant candidates in the descending candidate order wins. -/
def chooseMerge (R : String → String → ℚ) (db : DB) (h : String) : Option Nat :=
  match mergedEntryGrp db (GrpKey.byHash h) with
  | none => none
  | some newView =>
    match (mergeCands db h).mapM (fun s =>
        (mergedEntryGrp db (GrpKey.byRefid s)).map (fun m => (s, distance R newView m))) with
    | none => none
    | some cand => (argminFirst (fun p => p.2) cand).map (fun p => p.1)

/-- All merge decisions, keyed by hash. -/
def mergeChoices (R : String → String → ℚ) (db : DB) : Option (List (String × Nat)) :=
  (mergeHashes db).mapM (fun h => (chooseMerge R db h).map (fun w => (h, w)))

/-- `update_merge` per-entry update: an entry of a hash with a chosen
winning srefid receives `id := winner` when its own (non-NULL) srefid
differs from the winner. -/
def mergeUpd (choices : List (String × Nat)) (e : EntryRow) : EntryRow :=
  match e.hash with
  | some h =>
    match List.lookup h choices with
    | some w => if sqlNeNat e.srefid (some w) then { e with id := some w } else e
    | none => e
  | none => e

/-- `update_merge` for every group: entries of the hash whose (non-NULL)
srefid differs from the winner receive `id := winner`. -/
def applyMerge (choices : List (String × Nat)) (db : DB) : DB :=
  { db with entries := db.entries.map (mergeUpd choices) }

/-- `update_unchanged` per-entry update. -/
def carryUpd (e : EntryRow) : EntryRow :=
  if e.id.isNone && e.srefid.isSome then { e with id := e.srefid } else e

/-- `update_unchanged`: entries with NULL id and non-NULL srefid carry the
srefid forward into id. -/
def applyCarry (db : DB) : DB :=
  { db with entries := db.entries.map carryUpd }

/-- The `nomerges` assertion: no two entries share a (non-NULL) hash while
differing in (non-NULL) id. -/
def nomergesCheck (db : DB) : Bool :=
  !(db.entries.any (fun e => db.entries.any (fun o =>
      sqlEqStr o.hash e.hash && sqlNeNat o.id e.id)))

/-- `update_identified`: entries with NULL refid adopt the id of the first
same-hash entry carrying one (the correlated subquery evaluated against the
pre-update state; under the checked `nomerges` invariant every candidate
carries the same id). -/
def identifiedUpd (db : DB) (e : EntryRow) : EntryRow :=
  if e.refid.isNone then
    match db.entries.find? (fun o => sqlEqStr o.hash e.hash && o.id.isSome) with
    | some o => { e with id := o.id }
    | none => e
  else e

/-- `update_identified` over the whole table. -/
def applyIdentified (db : DB) : DB :=
  { db with entries := db.entries.map (identifiedUpd db) }

/-- `coalesce(max(Entry.refid), 0)`. -/
def maxRefid (db : DB) : Nat :=
  db.entries.foldl (fun acc e => max acc (e.refid.getD 0)) 0

/-- `select_nextid`: one more than the maximum refid ever seen. -/
def nextid (db : DB) : Nat := maxRefid db + 1

/-- First index of a string in a list. -/
def idxOf : List String → String → Option Nat
  | [], _ => none
  | x :: xs, h => if x = h then some 0 else (idxOf xs h).map (fun k => k + 1)

/-- `select_new`: the distinct (non-NULL — guaranteed by the initial
`allhash` assertion) hashes of the entries still lacking an id, in
ascending hash order. -/
def newHashes (db : DB) : List String :=
  dedupFirst (List.insertionSort strLE (db.entries.filterMap (fun e =>
    if e.id.isNone then e.hash else none)))

/-- `update_new` per-entry update: an entry whose hash is the k-th new hash
(ascending) receives `id := nextid + k`. -/
def newUpd (db : DB) (e : EntryRow) : EntryRow :=
  match e.hash with
  | some h =>
    match idxOf (newHashes db) h with
    | some k => { e with id := some (nextid db + k) }
    | none => e
  | none => e

/-- `update_new` via `executemany`: the k-th new hash group (ascending)
receives `id := nextid + k` on every entry carrying that hash. -/
def applyNewIds (db : DB) : DB :=
  { db with entries := db.entries.map (newUpd db) }

/-- `assign_ids(conn)`: the five resolver stages with their fatal
assertions; `none` models an aborted run (a failed assertion, or a
`KeyError`/`ValueError` inside a split or merge decision). -/
def assign_ids (R : String → String → ℚ) (db : DB) : Option DB :=
  if allhashCheck db = false then none
  else
    match splitChoices R (resetStage db) with
    | none => none
    | some sc =>
      if nosplitsCheck (applySplit sc (resetStage db)) = false then none
      else
        match mergeChoices R (applySplit sc (resetStage db)) with
        | none => none
        | some mc =>
          if nomergesCheck (applyCarry (applyMerge mc (applySplit sc (resetStage db))))
              = false then none
          else
            if allidCheck (applyNewIds (applyIdentified
                (applyCarry (applyMerge mc (applySplit sc (resetStage db)))))) = false
            then none
            else if onetooneCheck (applyNewIds (applyIdentified
                (applyCarry (applyMerge mc (applySplit sc (resetStage db)))))) = false
            then none
            else some (applyNewIds (applyIdentified
                (applyCarry (applyMerge mc (applySplit sc (resetStage db))))))

def dbC9 : DB :=
  { files := [⟨1, "a", 1, 1, 0⟩],
    entries := [⟨1, 1, "k", some 1, none, none, none⟩],
    values := [⟨1, ENTRYTYPE, "book"⟩] }

def dbC3 : DB :=
  { files := [⟨1, "a", 1, 1, 0⟩],
    entries := [⟨1, 1, "k1", some 3, some "b", none, none⟩,
                ⟨2, 1, "k2", none, some "a", none, none⟩],
    values := [] }

def dbC1 : DB :=
  { files := [⟨1, "a", 1, 1, 0⟩],
    entries := [⟨1, 1, "k1", some 1, some "h", none, none⟩,
                ⟨2, 1, "k2", some 1, some "h", none, none⟩],
    values := [] }

def dbC1' : DB :=
  { files := [⟨1, "a", 1, 1, 0⟩],
    entries := [⟨1, 1, "k1", some 1, some "h", some 1, some 1⟩,
                ⟨2, 1, "k2", some 1, some "h", some 1, some 1⟩],
    values := [] }

/-! ## The merge tie-break order -/

def dbC2 : DB :=
  { files := [⟨1, "a", 1, 1, 0⟩],
    entries := [⟨1, 1, "k", some 1, some "h", some 1, none⟩,
                ⟨2, 1, "k", some 2, some "h", some 2, none⟩],
    values := [⟨1, "title", "x"⟩, ⟨2, "title", "x"⟩] }

def dbC8 : DB :=
  { files := [⟨1, "a", 1, 1, 0⟩],
    entries := [⟨1, 1, "k1", some 1, some "5", none, some 7⟩,
                ⟨2, 1, "k2", some 2, some "1", none, some 5⟩],
    values := [] }

def dbC8w : DB :=
  { files := [⟨1, "a", 1, 1, 0⟩],
    entries := [⟨1, 1, "k1", some 1, some "x", none, some 5⟩,
                ⟨2, 1, "k2", some 2, some "y", none, some 5⟩],
    values := [] }

/-! ## Theorems -/

theorem fieldWeight_pos (k : String) : 0 < fieldWeight k := by
  unfold fieldWeight
  repeat' split
  all_goals norm_num

theorem multiset_inter_self {α : Type} [DecidableEq α] (s : Multiset α) : s ∩ s = s :=
  le_antisymm (Multiset.inter_le_left s s) (Multiset.le_inter le_rfl le_rfl)

theorem myRatio_self (a : String) : myRatio a a = 1 := by
  unfold myRatio
  simp only []
  split
  · rfl
  · rename_i h
    rw [multiset_inter_self]
    rw [div_eq_one_iff_eq]
    · push_cast
      ring
    · exact_mod_cast h

theorem myRatio_comm (a b : String) : myRatio a b = myRatio b a := by
  unfold myRatio
  simp only []
  rw [Multiset.inter_comm, Nat.add_comm]

theorem myRatio_range (a b : String) : 0 ≤ myRatio a b ∧ myRatio a b ≤ 1 := by
  unfold myRatio
  simp only []
  split
  · norm_num
  · rename_i h
    have hpos : 0 < Multiset.card (a.toList : Multiset Char)
        + Multiset.card (b.toList : Multiset Char) := Nat.pos_of_ne_zero h
    have hcard : (0 : ℚ) < ((Multiset.card (a.toList : Multiset Char)
        + Multiset.card (b.toList : Multiset Char) : ℕ) : ℚ) := by
      exact_mod_cast hpos
    constructor
    · apply div_nonneg _ (le_of_lt hcard)
      positivity
    · rw [div_le_one hcard]
      have h1 : Multiset.card ((a.toList : Multiset Char) ∩ (b.toList : Multiset Char))
          ≤ Multiset.card (a.toList : Multiset Char) :=
        Multiset.card_le_card (Multiset.inter_le_left _ _)
      have h2 : Multiset.card ((a.toList : Multiset Char) ∩ (b.toList : Multiset Char))
          ≤ Multiset.card (b.toList : Multiset Char) :=
        Multiset.card_le_card (Multiset.inter_le_right _ _)
      have h1q : ((Multiset.card ((a.toList : Multiset Char) ∩ (b.toList : Multiset Char)) : ℕ) : ℚ)
          ≤ ((Multiset.card (a.toList : Multiset Char) : ℕ) : ℚ) := by exact_mod_cast h1
      have h2q : ((Multiset.card ((a.toList : Multiset Char) ∩ (b.toList : Multiset Char)) : ℕ) : ℚ)
          ≤ ((Multiset.card (b.toList : Multiset Char) : ℕ) : ℚ) := by exact_mod_cast h2
      push_cast
      linarith [h1q, h2q]

theorem keyFinset_eq_empty_iff (m : FieldMap) : keyFinset m = ∅ ↔ m = [] := by
  unfold keyFinset
  constructor
  · intro h
    cases m with
    | nil => rfl
    | cons x xs =>
      exfalso
      have : x.1 ∈ ((x :: xs).map Prod.fst).toFinset := by
        simp
      rw [h] at this
      simp at this
  · intro h
    subst h
    rfl

theorem distance_sum_weight_pos (s : Finset String) (hs : s ≠ ∅) :
    0 < ∑ k ∈ s, fieldWeight k := by
  have hne : s.Nonempty := Finset.nonempty_iff_ne_empty.mpr hs
  exact Finset.sum_pos (fun k _ => fieldWeight_pos k) hne

/-- C6: `distance(X, X) == 0` for every non-empty field map X;
`distance(A, B) == 1` for maps that are not both empty and share no keys;
`distance` is symmetric; and the result always lies in [0, 1] — all under
the collaborator contract for the per-field ratio `R` (1.0 on identical
strings, symmetric, range [0,1]). -/
theorem claimC6 (R : String → String → ℚ)
    (hRefl : ∀ a, R a a = 1)
    (hComm : ∀ a b, R a b = R b a)
    (hRange : ∀ a b, 0 ≤ R a b ∧ R a b ≤ 1) :
    (∀ X : FieldMap, X ≠ [] → distance R X X = 0) ∧
    (∀ A B : FieldMap, (A ≠ [] ∨ B ≠ []) →
      keyFinset A ∩ keyFinset B = ∅ → distance R A B = 1) ∧
    (∀ A B : FieldMap, distance R A B = distance R B A) ∧
    (∀ A B : FieldMap, 0 ≤ distance R A B ∧ distance R A B ≤ 1) := by
  have hsum_le : ∀ (A B : FieldMap) (s : Finset String),
      (∑ k ∈ s, fieldWeight k * R (lookupD A k) (lookupD B k)) ≤ ∑ k ∈ s, fieldWeight k := by
    intro A B s
    apply Finset.sum_le_sum
    intro k _
    have := (hRange (lookupD A k) (lookupD B k)).2
    calc fieldWeight k * R (lookupD A k) (lookupD B k)
        ≤ fieldWeight k * 1 :=
          mul_le_mul_of_nonneg_left this (le_of_lt (fieldWeight_pos k))
      _ = fieldWeight k := mul_one _
  have hsum_nonneg : ∀ (A B : FieldMap) (s : Finset String),
      0 ≤ ∑ k ∈ s, fieldWeight k * R (lookupD A k) (lookupD B k) := by
    intro A B s
    apply Finset.sum_nonneg
    intro k _
    exact mul_nonneg (le_of_lt (fieldWeight_pos k)) (hRange _ _).1
  refine ⟨?_, ?_, ?_, ?_⟩
  · intro X hX
    unfold distance
    rw [if_neg (by simp [hX])]
    simp only [Finset.inter_self]
    rw [if_neg ((keyFinset_eq_empty_iff X).not.mpr hX)]
    have : (∑ k ∈ keyFinset X, fieldWeight k * R (lookupD X k) (lookupD X k))
        = ∑ k ∈ keyFinset X, fieldWeight k := by
      apply Finset.sum_congr rfl
      intro k _
      rw [hRefl, mul_one]
    rw [this, div_self (ne_of_gt (distance_sum_weight_pos _
      ((keyFinset_eq_empty_iff X).not.mpr hX)))]
    ring
  · intro A B hAB hkeys
    unfold distance
    have hne : ¬(A = [] ∧ B = []) := by tauto
    rw [if_neg hne, if_pos hkeys]
  · intro A B
    unfold distance
    by_cases hE : A = [] ∧ B = []
    · rw [if_pos hE, if_pos ⟨hE.2, hE.1⟩]
    · have hE2 : ¬(B = [] ∧ A = []) := fun hc => hE ⟨hc.2, hc.1⟩
      rw [if_neg hE, if_neg hE2]
      have hIC : keyFinset B ∩ keyFinset A = keyFinset A ∩ keyFinset B :=
        Finset.inter_comm _ _
      by_cases hk : keyFinset A ∩ keyFinset B = ∅
      · rw [if_pos hk, if_pos (hIC.trans hk)]
      · rw [if_neg hk, if_neg (fun hc => hk (hIC.symm.trans hc))]
        rw [hIC]
        have hS : (∑ k ∈ keyFinset A ∩ keyFinset B,
              fieldWeight k * R (lookupD B k) (lookupD A k))
            = ∑ k ∈ keyFinset A ∩ keyFinset B,
              fieldWeight k * R (lookupD A k) (lookupD B k) := by
          apply Finset.sum_congr rfl
          intro k _
          rw [hComm]
        rw [hS]
  · intro A B
    unfold distance
    split
    · norm_num
    · split
      · norm_num
      · rename_i hcond hk
        have hpos : 0 < ∑ k ∈ keyFinset A ∩ keyFinset B, fieldWeight k :=
          distance_sum_weight_pos _ hk
        have hle := hsum_le A B (keyFinset A ∩ keyFinset B)
        have hnn := hsum_nonneg A B (keyFinset A ∩ keyFinset B)
        constructor
        · have : (∑ k ∈ keyFinset A ∩ keyFinset B,
              fieldWeight k * R (lookupD A k) (lookupD B k))
              / (∑ k ∈ keyFinset A ∩ keyFinset B, fieldWeight k) ≤ 1 := by
            rw [div_le_one hpos]
            exact hle
          linarith
        · have : 0 ≤ (∑ k ∈ keyFinset A ∩ keyFinset B,
              fieldWeight k * R (lookupD A k) (lookupD B k))
              / (∑ k ∈ keyFinset A ∩ keyFinset B, fieldWeight k) :=
            div_nonneg hnn (le_of_lt hpos)
          linarith

/-- Witness for C6 at the modelled ratio and concrete maps. -/
theorem claimC6_witness :
    distance myRatio [("title", "x")] [("title", "x")] = 0 ∧
    distance myRatio [("author", "a")] [("year", "b")] = 1 :=
  ⟨(claimC6 myRatio myRatio_self myRatio_comm myRatio_range).1
      [("title", "x")] (by decide),
   (claimC6 myRatio myRatio_self myRatio_comm myRatio_range).2.1
      [("author", "a")] [("year", "b")] (Or.inl (by decide)) (by decide)⟩

theorem lltInt_irrefl (l : List Int) : lltInt l l = false := by
  induction l with
  | nil => rfl
  | cons x xs ih =>
    unfold lltInt
    rw [if_neg (lt_irrefl x), if_neg (lt_irrefl x)]
    exact ih

theorem lltInt_trans {a b c : List Int} (h1 : lltInt a b = true)
    (h2 : lltInt b c = true) : lltInt a c = true := by
  induction c generalizing a b with
  | nil => cases b <;> simp [lltInt] at h2
  | cons z zs ih =>
    cases a with
    | nil => rfl
    | cons x xs =>
      cases b with
      | nil => simp [lltInt] at h1
      | cons y ys =>
        unfold lltInt at h1 h2 ⊢
        by_cases hxy : x < y
        · by_cases hyz : y < z
          · rw [if_pos (lt_trans hxy hyz)]
          · rw [if_neg hyz] at h2
            split at h2
            · rename_i hzy
              exact absurd h2 (by simp)
            · rename_i hzy
              have hyz2 : y = z := le_antisymm (not_lt.mp hzy) (not_lt.mp hyz)
              subst hyz2
              rw [if_pos hxy]
        · rw [if_neg hxy] at h1
          split at h1
          · exact absurd h1 (by simp)
          · rename_i hyx
            have hxy2 : x = y := le_antisymm (not_lt.mp hyx) (not_lt.mp hxy)
            subst hxy2
            by_cases hyz : x < z
            · rw [if_pos hyz]
            · rw [if_neg hyz] at h2 ⊢
              split at h2
              · exact absurd h2 (by simp)
              · rename_i hzx
                rw [if_neg hzx]
                exact ih h1 h2

theorem lltInt_connex {a b : List Int} (h1 : lltInt a b = false)
    (h2 : lltInt b a = false) : a = b := by
  induction a generalizing b with
  | nil =>
    cases b with
    | nil => rfl
    | cons y ys => simp [lltInt] at h1
  | cons x xs ih =>
    cases b with
    | nil => simp [lltInt] at h2
    | cons y ys =>
      unfold lltInt at h1 h2
      by_cases hxy : x < y
      · rw [if_pos hxy] at h1
        exact absurd h1 (by simp)
      · rw [if_neg hxy] at h1
        by_cases hyx : y < x
        · rw [if_pos hyx] at h2
          exact absurd h2 (by simp)
        · rw [if_neg hyx] at h1
          rw [if_neg hyx, if_neg hxy] at h2
          have hxy2 : x = y := le_antisymm (not_lt.mp hyx) (not_lt.mp hxy)
          subst hxy2
          rw [ih h1 h2]

theorem lltInt_asymm {a b : List Int} (h : lltInt a b = true) :
    lltInt b a = false := by
  by_contra hc
  have := lltInt_trans h (Bool.of_not_eq_false hc)
  rw [lltInt_irrefl] at this
  exact absurd this (by simp)

theorem keyLE_total (k : α → List Int) (a b : α) : keyLE k a b ∨ keyLE k b a := by
  unfold keyLE
  by_cases h : lltInt (k b) (k a) = false
  · exact Or.inl h
  · exact Or.inr (lltInt_asymm (Bool.of_not_eq_false h))

theorem keyLE_trans (k : α → List Int) {a b c : α}
    (h1 : keyLE k a b) (h2 : keyLE k b c) : keyLE k a c := by
  unfold keyLE at h1 h2 ⊢
  by_contra hc
  have hca := Bool.of_not_eq_false hc
  by_cases hba : lltInt (k a) (k b) = true
  · rw [lltInt_trans hca hba] at h2
    exact absurd h2 (by simp)
  · have : k a = k b := lltInt_connex (Bool.not_eq_true _ ▸ hba) h1
    rw [← this] at h2
    rw [h2] at hca
    exact absurd hca (by simp)

theorem keyLE_refl (k : α → List Int) (a : α) : keyLE k a a := lltInt_irrefl _

instance : IsTotal GRow rowLE := ⟨keyLE_total rowKeyL⟩

instance : IsTrans GRow rowLE := ⟨fun _ _ _ => keyLE_trans rowKeyL⟩

instance : IsTotal String strLE := ⟨keyLE_total charInts⟩

instance : IsTrans String strLE := ⟨fun _ _ _ => keyLE_trans charInts⟩

instance : IsTotal MRow mrowLE := ⟨fun a b => keyLE_total _ a b⟩

instance : IsTrans MRow mrowLE := ⟨fun _ _ _ h1 h2 => keyLE_trans _ h1 h2⟩

/-! ## Properties of the helpers -/

theorem dedupFirstAux_sublist [DecidableEq α] (seen : List α) (l : List α) :
    (dedupFirstAux seen l).Sublist l := by
  induction l generalizing seen with
  | nil => exact List.Sublist.refl []
  | cons x xs ih =>
    unfold dedupFirstAux
    split
    · exact List.Sublist.cons x (ih seen)
    · exact List.Sublist.cons₂ x (ih (x :: seen))

theorem mem_dedupFirstAux [DecidableEq α] (seen : List α) (l : List α) (a : α) :
    a ∈ dedupFirstAux seen l ↔ a ∈ l ∧ a ∉ seen := by
  induction l generalizing seen with
  | nil => simp [dedupFirstAux]
  | cons x xs ih =>
    unfold dedupFirstAux
    by_cases hx : x ∈ seen
    · rw [if_pos hx, ih seen]
      constructor
      · rintro ⟨h1, h2⟩
        exact ⟨List.mem_cons_of_mem x h1, h2⟩
      · rintro ⟨h1, h2⟩
        rcases List.mem_cons.mp h1 with rfl | h1
        · exact absurd hx h2
        · exact ⟨h1, h2⟩
    · rw [if_neg hx, List.mem_cons, ih (x :: seen)]
      constructor
      · rintro (rfl | ⟨h1, h2⟩)
        · exact ⟨List.mem_cons_self _ _, hx⟩
        · exact ⟨List.mem_cons_of_mem x h1,
            fun hc => h2 (List.mem_cons_of_mem x hc)⟩
      · rintro ⟨h1, h2⟩
        by_cases hax : a = x
        · exact Or.inl hax
        · rcases List.mem_cons.mp h1 with rfl | h1
          · exact absurd rfl hax
          · refine Or.inr ⟨h1, fun hc => ?_⟩
            rcases List.mem_cons.mp hc with rfl | hc2
            · exact hax rfl
            · exact h2 hc2

theorem dedupFirstAux_nodup [DecidableEq α] (seen : List α) (l : List α) :
    (dedupFirstAux seen l).Nodup := by
  induction l generalizing seen with
  | nil => exact List.nodup_nil
  | cons x xs ih =>
    unfold dedupFirstAux
    split
    · exact ih seen
    · refine List.Nodup.cons ?_ (ih (x :: seen))
      intro hc
      have := (mem_dedupFirstAux (x :: seen) xs x).mp hc
      exact this.2 (List.mem_cons_self x seen)

theorem dedupFirst_sublist [DecidableEq α] (l : List α) : (dedupFirst l).Sublist l :=
  dedupFirstAux_sublist [] l

theorem mem_dedupFirst [DecidableEq α] (l : List α) (a : α) :
    a ∈ dedupFirst l ↔ a ∈ l := by
  unfold dedupFirst
  rw [mem_dedupFirstAux]
  simp

theorem dedupFirst_nodup [DecidableEq α] (l : List α) : (dedupFirst l).Nodup :=
  dedupFirstAux_nodup [] l

theorem strLt_irrefl (a : String) : ¬strLt a a := by
  unfold strLt
  rw [lltInt_irrefl]
  simp

theorem strLt_trans {a b c : String} (h1 : strLt a b) (h2 : strLt b c) :
    strLt a c := lltInt_trans h1 h2

theorem charInts_injective {a b : String} (h : charInts a = charInts b) : a = b := by
  unfold charInts at h
  have hdata : a.toList = b.toList := by
    have hinj : Function.Injective (fun c : Char => (c.toNat : Int)) := by
      intro c d hcd
      have h0 : (c.toNat : Int) = (d.toNat : Int) := hcd
      have h1 : c.toNat = d.toNat := by exact_mod_cast h0
      exact Char.eq_of_val_eq (UInt32.ext h1)
    exact List.map_injective_iff.mpr hinj h
  exact String.ext (by simpa [String.toList] using hdata)

theorem strLt_trichotomy (a b : String) : strLt a b ∨ strLt b a ∨ a = b := by
  by_cases h1 : lltInt (charInts a) (charInts b) = true
  · exact Or.inl h1
  · by_cases h2 : lltInt (charInts b) (charInts a) = true
    · exact Or.inr (Or.inl h2)
    · exact Or.inr (Or.inr (charInts_injective
        (lltInt_connex (Bool.not_eq_true _ ▸ h1) (Bool.not_eq_true _ ▸ h2))))

theorem charInts_nonneg (s : String) : ∀ x ∈ charInts s, 0 ≤ x := by
  intro x hx
  unfold charInts at hx
  rcases List.mem_map.mp hx with ⟨c, _, rfl⟩
  exact Int.natCast_nonneg c.toNat

theorem lltInt_nil_nil : lltInt ([] : List Int) [] = false := rfl

theorem lltInt_nil_cons (y : Int) (ys : List Int) :
    lltInt ([] : List Int) (y :: ys) = true := rfl

theorem lltInt_cons_nil (x : Int) (xs : List Int) :
    lltInt (x :: xs) ([] : List Int) = false := rfl

theorem lltInt_cons_cons (x y : Int) (xs ys : List Int) :
    lltInt (x :: xs) (y :: ys)
      = if x < y then true else if y < x then false else lltInt xs ys := by
  simp only [lltInt]

/-- Decomposition of the lexicographic comparison across a `-1` terminator:
with nonnegative prefix elements, the concatenated keys compare by the
prefixes first and by the tails on equal prefixes. -/
theorem lltInt_terminator : ∀ F G u v : List Int,
    (∀ x ∈ F, 0 ≤ x) → (∀ x ∈ G, 0 ≤ x) →
    lltInt (F ++ (-1) :: u) (G ++ (-1) :: v)
      = if lltInt F G = true then true
        else if lltInt G F = true then false
        else lltInt u v := by
  intro F
  induction F with
  | nil =>
    intro G u v _ hG
    cases G with
    | nil =>
      simp only [List.nil_append, lltInt_nil_nil]
      rw [lltInt_cons_cons]
      rw [if_neg (lt_irrefl (-1 : Int)), if_neg (lt_irrefl (-1 : Int))]
      simp
    | cons g gs =>
      have hg : (0 : Int) ≤ g := hG g (List.mem_cons_self g gs)
      simp only [List.nil_append, List.cons_append]
      rw [lltInt_cons_cons, if_pos (by omega : (-1 : Int) < g), lltInt_nil_cons]
      simp
  | cons f fs ih =>
    intro G u v hF hG
    cases G with
    | nil =>
      have hf : (0 : Int) ≤ f := hF f (List.mem_cons_self f fs)
      simp only [List.nil_append, List.cons_append]
      rw [lltInt_cons_cons, if_neg (by omega : ¬(f < (-1 : Int))),
        if_pos (by omega : (-1 : Int) < f), lltInt_cons_nil, lltInt_nil_cons]
      simp
    | cons g gs =>
      simp only [List.cons_append]
      rw [lltInt_cons_cons f g (fs ++ (-1) :: u) (gs ++ (-1) :: v),
        lltInt_cons_cons f g fs gs, lltInt_cons_cons g f gs fs]
      by_cases hfg : f < g
      · simp [hfg]
      · by_cases hgf : g < f
        · simp [hfg, hgf]
        · simp only [if_neg hfg, if_neg hgf]
          rw [ih gs u v (fun x hx => hF x (List.mem_cons_of_mem f hx))
            (fun x hx => hG x (List.mem_cons_of_mem g hx))]

theorem strLt_asymm {a b : String} (h : strLt a b) : ¬strLt b a := by
  intro hc
  have := lltInt_asymm h
  rw [hc] at this
  exact absurd this (by simp)

theorem lltInt_str_false_iff (a b : String) :
    lltInt (charInts a) (charInts b) = false ↔ (strLt b a ∨ b = a) := by
  rcases strLt_trichotomy a b with h | h | h
  · constructor
    · intro hf
      have hx : lltInt (charInts a) (charInts b) = true := h
      rw [hx] at hf
      exact absurd hf (by simp)
    · rintro (hc | rfl)
      · exact absurd h (strLt_asymm hc)
      · exact absurd h (strLt_irrefl _)
  · constructor
    · intro _
      exact Or.inl h
    · intro _
      exact lltInt_asymm h
  · subst h
    constructor
    · intro _
      exact Or.inr rfl
    · intro _
      exact lltInt_irrefl _

theorem rowKeyL_eq (r : GRow) :
    rowKeyL r = charInts r.field
      ++ (-1) :: (-r.priority
        :: (charInts r.filename ++ (-1) :: charInts r.bibkey)) := by
  unfold rowKeyL
  simp [List.append_assoc]

/-- Full decode of the row order of `_merged_entrygrp`: field ascending,
then priority descending, then filename and bibkey ascending. -/
theorem rowLE_iff (r s : GRow) : rowLE r s ↔
    (strLt r.field s.field ∨ (r.field = s.field ∧
      (s.priority < r.priority ∨ (r.priority = s.priority ∧
        (strLt r.filename s.filename ∨ (r.filename = s.filename ∧
          (strLt r.bibkey s.bibkey ∨ r.bibkey = s.bibkey))))))) := by
  unfold rowLE keyLE
  rw [rowKeyL_eq r, rowKeyL_eq s]
  rw [lltInt_terminator _ _ _ _ (charInts_nonneg _) (charInts_nonneg _)]
  rcases strLt_trichotomy r.field s.field with hf | hf | hf
  · have h1 : lltInt (charInts s.field) (charInts r.field) = false := lltInt_asymm hf
    have h2 : lltInt (charInts r.field) (charInts s.field) = true := hf
    rw [h1, h2]
    simp only [Bool.false_eq_true, if_false, if_true]
    constructor
    · intro _
      exact Or.inl hf
    · intro _
      trivial
  · have h1 : lltInt (charInts s.field) (charInts r.field) = true := hf
    rw [h1]
    simp only [if_true]
    constructor
    · intro hc
      exact absurd hc (by simp)
    · rintro (hc | ⟨hc, _⟩)
      · exact absurd hf (strLt_asymm hc)
      · rw [hc] at hf
        exact absurd hf (strLt_irrefl _)
  · have h1 : lltInt (charInts s.field) (charInts r.field) = false := by
      rw [hf]
      exact lltInt_irrefl _
    have h2 : lltInt (charInts r.field) (charInts s.field) = false := by
      rw [hf]
      exact lltInt_irrefl _
    rw [h1, h2]
    simp only [Bool.false_eq_true, if_false]
    rw [lltInt_cons_cons]
    rcases lt_trichotomy r.priority s.priority with hpr | hpr | hpr
    · rw [if_pos (by omega : -s.priority < -r.priority)]
      constructor
      · intro hc
        exact absurd hc (by simp)
      · rintro (hc | ⟨_, hc | ⟨hc2, _⟩⟩)
        · rw [hf] at hc
          exact absurd hc (strLt_irrefl _)
        · omega
        · omega
    · rw [if_neg (by omega : ¬(-s.priority < -r.priority)),
        if_neg (by omega : ¬(-r.priority < -s.priority))]
      rw [lltInt_terminator _ _ _ _ (charInts_nonneg _) (charInts_nonneg _)]
      rcases strLt_trichotomy r.filename s.filename with hn | hn | hn
      · have g1 : lltInt (charInts s.filename) (charInts r.filename) = false :=
          lltInt_asymm hn
        have g2 : lltInt (charInts r.filename) (charInts s.filename) = true := hn
        rw [g1, g2]
        norm_num
        exact Or.inr ⟨hf, Or.inr ⟨hpr, Or.inl hn⟩⟩
      · have g1 : lltInt (charInts s.filename) (charInts r.filename) = true := hn
        rw [g1]
        norm_num
        refine ⟨?_, fun _ => ⟨le_of_eq hpr, fun _ => ⟨?_, fun hfn => ?_⟩⟩⟩
        · rw [hf]
          exact strLt_irrefl _
        · exact fun hc => strLt_asymm hc hn
        · rw [hfn] at hn
          exact absurd hn (strLt_irrefl _)
      · have g1 : lltInt (charInts s.filename) (charInts r.filename) = false := by
          rw [hn]
          exact lltInt_irrefl _
        have g2 : lltInt (charInts r.filename) (charInts s.filename) = false := by
          rw [hn]
          exact lltInt_irrefl _
        rw [g1, g2]
        simp only [Bool.false_eq_true, if_false]
        rw [lltInt_str_false_iff]
        constructor
        · rintro (hc | hc)
          · exact Or.inr ⟨hf, Or.inr ⟨hpr, Or.inr ⟨hn, Or.inl hc⟩⟩⟩
          · exact Or.inr ⟨hf, Or.inr ⟨hpr, Or.inr ⟨hn, Or.inr hc⟩⟩⟩
        · rintro (hc | ⟨_, hc | ⟨_, hc | ⟨_, hc | hc⟩⟩⟩)
          · rw [hf] at hc
            exact absurd hc (strLt_irrefl _)
          · omega
          · rw [hn] at hc
            exact absurd hc (strLt_irrefl _)
          · exact Or.inl hc
          · exact Or.inr hc
    · rw [if_neg (by omega : ¬(-s.priority < -r.priority)),
        if_pos (by omega : -r.priority < -s.priority)]
      simp only [if_true]
      constructor
      · intro _
        exact Or.inr ⟨hf, Or.inl hpr⟩
      · intro _
        trivial

theorem rowLE_field_weaken {r s : GRow} (h : rowLE r s) :
    strLt r.field s.field ∨ r.field = s.field := by
  rcases (rowLE_iff r s).mp h with h1 | ⟨h1, _⟩
  · exact Or.inl h1
  · exact Or.inr h1

/-- The row order restricted to rows of one field group is exactly the
priority-then-filename-then-bibkey preference. -/
theorem rowLE_same_field {r s : GRow} (hf : r.field = s.field) :
    rowLE r s ↔
      (s.priority < r.priority ∨ (r.priority = s.priority ∧
        (strLt r.filename s.filename ∨ (r.filename = s.filename ∧
          (strLt r.bibkey s.bibkey ∨ r.bibkey = s.bibkey))))) := by
  rw [rowLE_iff]
  constructor
  · rintro (hc | ⟨_, hc⟩)
    · rw [hf] at hc
      exact absurd hc (strLt_irrefl _)
    · exact hc
  · intro hc
    exact Or.inr ⟨hf, hc⟩

theorem groupByField_ne_nil (r : GRow) (rs : List GRow) :
    groupByField (r :: rs) ≠ [] := by
  unfold groupByField
  cases hgbf : groupByField rs with
  | nil => simp
  | cons p gs =>
    obtain ⟨f, g⟩ := p
    by_cases hrf : r.field = f
    · simp [hrf]
    · simp [hrf]

theorem groupByField_nil_iff (l : List GRow) : groupByField l = [] ↔ l = [] := by
  cases l with
  | nil => simp [groupByField]
  | cons r rs =>
    constructor
    · intro h
      exact absurd h (groupByField_ne_nil r rs)
    · intro h
      exact absurd h (by simp)

/-- Specification of grouping consecutive sorted rows by field: keys are
strictly ascending; every group is nonempty, starts with its least row,
carries exactly the rows of its field; and every row lies in a group. -/
theorem groupByField_spec : ∀ l : List GRow, l.Pairwise rowLE →
    ((groupByField l).Pairwise (fun p q => strLt p.1 q.1)) ∧
    (∀ p ∈ groupByField l,
      (∃ r0 t, p.2 = r0 :: t ∧ p.1 = r0.field ∧ ∀ r ∈ p.2, rowLE r0 r) ∧
      (∀ r ∈ p.2, r.field = p.1 ∧ r ∈ l) ∧
      (∀ r ∈ l, r.field = p.1 → r ∈ p.2)) ∧
    (∀ r ∈ l, ∃ p ∈ groupByField l, r ∈ p.2) := by
  intro l
  induction l with
  | nil =>
    intro _
    refine ⟨List.Pairwise.nil, ?_, ?_⟩ <;> simp [groupByField]
  | cons r rs ih =>
    intro hp
    have hhead : ∀ x ∈ rs, rowLE r x := (List.pairwise_cons.mp hp).1
    have htail : rs.Pairwise rowLE := (List.pairwise_cons.mp hp).2
    obtain ⟨ihKeys, ihSpec, ihCov⟩ := ih htail
    cases hgbf : groupByField rs with
    | nil =>
      have hrs : rs = [] := (groupByField_nil_iff rs).mp hgbf
      subst hrs
      have hstep : groupByField [r] = [(r.field, [r])] := rfl
      rw [hstep]
      refine ⟨?_, ?_, ?_⟩
      · exact List.pairwise_singleton _ _
      · intro p hpmem
        rcases List.mem_singleton.mp hpmem with rfl
        refine ⟨⟨r, [], rfl, rfl, ?_⟩, ?_, ?_⟩
        · intro x hx
          rcases List.mem_singleton.mp hx with rfl
          exact keyLE_refl _ _
        · intro x hx
          rcases List.mem_singleton.mp hx with rfl
          exact ⟨rfl, List.mem_singleton_self _⟩
        · intro x hx _
          rcases List.mem_singleton.mp hx with rfl
          exact List.mem_singleton_self _
      · intro x hx
        rcases List.mem_singleton.mp hx with rfl
        exact ⟨(x.field, [x]), List.mem_singleton_self _, List.mem_singleton_self _⟩
    | cons p0 gs =>
      obtain ⟨f, g⟩ := p0
      rw [hgbf] at ihKeys ihSpec ihCov
      have hfg_spec := ihSpec (f, g) (List.mem_cons_self _ _)
      obtain ⟨⟨r1, t1, hg_eq, hf_eq, hg_head⟩, hg_mem, hg_comp⟩ := hfg_spec
      have hg2 : g = r1 :: t1 := hg_eq
      have hr1g : r1 ∈ g := by
        rw [hg2]
        exact List.mem_cons_self _ _
      have hr1_mem : r1 ∈ rs := (hg_mem r1 hr1g).2
      have hKeysTail : ∀ q ∈ gs, strLt f q.1 :=
        (List.pairwise_cons.mp ihKeys).1
      by_cases hrf : r.field = f
      · have hstep : groupByField (r :: rs) = (f, r :: g) :: gs := by
          unfold groupByField
          rw [hgbf]
          show (if r.field = f then (f, r :: g) :: gs
            else (r.field, [r]) :: (f, g) :: gs) = (f, r :: g) :: gs
          rw [if_pos hrf]
        rw [hstep]
        refine ⟨?_, ?_, ?_⟩
        · exact List.pairwise_cons.mpr
            ⟨fun q hq => hKeysTail q hq, (List.pairwise_cons.mp ihKeys).2⟩
        · intro p hpmem
          rcases List.mem_cons.mp hpmem with rfl | hpgs
          · refine ⟨⟨r, g, rfl, hrf.symm, ?_⟩, ?_, ?_⟩
            · intro x hx
              rcases List.mem_cons.mp hx with rfl | hx
              · exact keyLE_refl _ _
              · exact hhead x (hg_mem x hx).2
            · intro x hx
              rcases List.mem_cons.mp hx with rfl | hx
              · exact ⟨hrf, List.mem_cons_self _ _⟩
              · exact ⟨(hg_mem x hx).1, List.mem_cons_of_mem r (hg_mem x hx).2⟩
            · intro x hx hxf
              rcases List.mem_cons.mp hx with rfl | hx
              · exact List.mem_cons_self _ _
              · exact List.mem_cons_of_mem r (hg_comp x hx hxf)
          · have hq_spec := ihSpec p (List.mem_cons_of_mem _ hpgs)
            obtain ⟨hq_head, hq_mem, hq_comp⟩ := hq_spec
            have hqf : strLt f p.1 := hKeysTail p hpgs
            refine ⟨hq_head, ?_, ?_⟩
            · intro x hx
              exact ⟨(hq_mem x hx).1, List.mem_cons_of_mem r (hq_mem x hx).2⟩
            · intro x hx hxf
              rcases List.mem_cons.mp hx with rfl | hx
              · rw [hxf] at hrf
                rw [← hrf] at hqf
                exact absurd hqf (strLt_irrefl _)
              · exact hq_comp x hx hxf
        · intro x hx
          rcases List.mem_cons.mp hx with rfl | hx
          · exact ⟨(f, x :: g), List.mem_cons_self _ _, List.mem_cons_self _ _⟩
          · obtain ⟨p, hpmem, hxp⟩ := ihCov x hx
            rcases List.mem_cons.mp hpmem with rfl | hpgs
            · exact ⟨(f, r :: g), List.mem_cons_self _ _, List.mem_cons_of_mem r hxp⟩
            · exact ⟨p, List.mem_cons_of_mem _ hpgs, hxp⟩
      · have hstep : groupByField (r :: rs) = (r.field, [r]) :: (f, g) :: gs := by
          unfold groupByField
          rw [hgbf]
          show (if r.field = f then (f, r :: g) :: gs
            else (r.field, [r]) :: (f, g) :: gs) = (r.field, [r]) :: (f, g) :: gs
          rw [if_neg hrf]
        rw [hstep]
        have hrlt_f : strLt r.field f := by
          have hf2 : f = r1.field := hf_eq
          rcases rowLE_field_weaken (hhead r1 hr1_mem) with h | h
          · rw [hf2]
            exact h
          · rw [hf2] at hrf
            exact absurd h hrf
        have hrlt_all : ∀ q ∈ gs, strLt r.field q.1 :=
          fun q hq => strLt_trans hrlt_f (hKeysTail q hq)
        refine ⟨?_, ?_, ?_⟩
        · refine List.pairwise_cons.mpr ⟨?_, ihKeys⟩
          intro q hq
          rcases List.mem_cons.mp hq with rfl | hqgs
          · exact hrlt_f
          · exact hrlt_all q hqgs
        · intro p hpmem
          rcases List.mem_cons.mp hpmem with rfl | hpold
          · refine ⟨⟨r, [], rfl, rfl, ?_⟩, ?_, ?_⟩
            · intro x hx
              rcases List.mem_singleton.mp hx with rfl
              exact keyLE_refl _ _
            · intro x hx
              rcases List.mem_singleton.mp hx with rfl
              exact ⟨rfl, List.mem_cons_self _ _⟩
            · intro x hx hxf
              rcases List.mem_cons.mp hx with rfl | hx
              · exact List.mem_singleton_self _
              · obtain ⟨q, hqmem, hxq⟩ := ihCov x hx
                have hxq_field : x.field = q.1 := ((ihSpec q hqmem).2.1 x hxq).1
                have : strLt r.field q.1 := by
                  rcases List.mem_cons.mp hqmem with rfl | hqgs
                  · exact hrlt_f
                  · exact hrlt_all q hqgs
                rw [← hxq_field, hxf] at this
                exact absurd this (strLt_irrefl _)
          · have hq_spec := ihSpec p hpold
            obtain ⟨hq_head, hq_mem, hq_comp⟩ := hq_spec
            have hqf : strLt r.field p.1 := by
              rcases List.mem_cons.mp hpold with rfl | hpgs
              · exact hrlt_f
              · exact hrlt_all p hpgs
            refine ⟨hq_head, ?_, ?_⟩
            · intro x hx
              exact ⟨(hq_mem x hx).1, List.mem_cons_of_mem r (hq_mem x hx).2⟩
            · intro x hx hxf
              rcases List.mem_cons.mp hx with rfl | hx
              · rw [hxf] at hqf
                exact absurd hqf (strLt_irrefl _)
              · exact hq_comp x hx hxf
        · intro x hx
          rcases List.mem_cons.mp hx with rfl | hx
          · exact ⟨(x.field, [x]), List.mem_cons_self _ _, List.mem_singleton_self _⟩
          · obtain ⟨p, hpmem, hxp⟩ := ihCov x hx
            exact ⟨p, List.mem_cons_of_mem _ hpmem, hxp⟩

theorem lookup_append_left {l1 l2 : List (String × String)} {f v : String}
    (h : List.lookup f l1 = some v) : List.lookup f (l1 ++ l2) = some v := by
  induction l1 with
  | nil => simp [List.lookup] at h
  | cons p ps ih =>
    obtain ⟨k, b⟩ := p
    by_cases hpf : f == k
    · simp [List.lookup, hpf] at h ⊢
      exact h
    · simp only [List.cons_append]
      simp [List.lookup, hpf] at h ⊢
      exact ih h

theorem lookup_filter {l : List (String × String)} {f : String}
    {P : String × String → Bool} (hP : ∀ kv : String × String, kv.1 = f → P kv = true) :
    List.lookup f (l.filter P) = List.lookup f l := by
  induction l with
  | nil => simp
  | cons p ps ih =>
    obtain ⟨k, b⟩ := p
    by_cases hpf : f == k
    · have hk : k = f := (beq_iff_eq.mp hpf).symm
      rw [List.filter_cons, if_pos (hP (k, b) hk)]
      simp [List.lookup, hpf]
    · rw [List.filter_cons]
      by_cases hPk : P (k, b) = true
      · rw [if_pos hPk]
        simp [List.lookup, hpf]
        exact ih
      · rw [if_neg hPk]
        rw [ih]
        simp [List.lookup, hpf]

theorem lookup_grp_fields : ∀ (grp : List (String × List GRow)),
    grp.Pairwise (fun p q => strLt p.1 q.1) →
    ∀ f g, (f, g) ∈ grp → f ∉ IGNORE_FIELDS →
    List.lookup f (grp.filterMap (fun p =>
      if p.1 ∈ IGNORE_FIELDS then none
      else if p.1 ∈ UNION_FIELDS then
        some (p.1, sepJoin (dedupFirst (p.2.map (fun r => r.value))))
      else some (p.1, ((p.2.head?).map (fun r => r.value)).getD "")))
      = some (if f ∈ UNION_FIELDS
              then sepJoin (dedupFirst (g.map (fun r => r.value)))
              else ((g.head?).map (fun r => r.value)).getD "") := by
  intro grp
  induction grp with
  | nil =>
    intro _ f g hmem
    exact absurd hmem (by simp)
  | cons p ps ih =>
    intro hkeys f g hmem hfI
    have hkhead : ∀ q ∈ ps, strLt p.1 q.1 := (List.pairwise_cons.mp hkeys).1
    have hktail := (List.pairwise_cons.mp hkeys).2
    rcases List.mem_cons.mp hmem with rfl | hmem2
    · rw [List.filterMap_cons]
      simp only []
      rw [if_neg hfI]
      by_cases hU : f ∈ UNION_FIELDS
      · rw [if_pos hU, if_pos hU]
        simp [List.lookup]
      · rw [if_neg hU, if_neg hU]
        simp [List.lookup]
    · have hne : p.1 ≠ f := by
        intro hc
        have : strLt p.1 f := by
          have hq := hkhead (f, g) hmem2
          exact hq
        rw [hc] at this
        exact absurd this (strLt_irrefl _)
      rw [List.filterMap_cons]
      by_cases hI : p.1 ∈ IGNORE_FIELDS
      · rw [if_pos hI]
        exact ih hktail f g hmem2 hfI
      · rw [if_neg hI]
        by_cases hU : p.1 ∈ UNION_FIELDS
        · rw [if_pos hU]
          have hfp : (f == p.1) = false := by
            rw [beq_eq_false_iff_ne]
            exact fun hc => hne hc.symm
          simp only [List.lookup, hfp]
          exact ih hktail f g hmem2 hfI
        · rw [if_neg hU]
          have hfp : (f == p.1) = false := by
            rw [beq_eq_false_iff_ne]
            exact fun hc => hne hc.symm
          simp only [List.lookup, hfp]
          exact ih hktail f g hmem2 hfI

/-- Lookup of a non-ignored, non-provenance field in the merged entry. -/
theorem mergedEntryRaw_lookup (grp : List (String × List GRow))
    (hkeys : grp.Pairwise (fun p q => strLt p.1 q.1))
    (f : String) (g : List GRow) (hmem : (f, g) ∈ grp)
    (hfI : f ∉ IGNORE_FIELDS) (hs1 : f ≠ "src") (hs2 : f ≠ "srctrickle") :
    List.lookup f (mergedEntryRaw grp) =
      some (if f ∈ UNION_FIELDS
            then sepJoin (dedupFirst (g.map (fun r => r.value)))
            else ((g.head?).map (fun r => r.value)).getD "") := by
  unfold mergedEntryRaw
  apply lookup_append_left
  rw [lookup_filter (fun kv hkv => by
    rw [hkv]
    simp [hs1, hs2])]
  exact lookup_grp_fields grp hkeys f g hmem hfI

theorem grpRows_pairwise (db : DB) (key : GrpKey) :
    (grpRows db key).Pairwise rowLE :=
  List.sorted_insertionSort rowLE (grpRowsUnsorted db key)

/-- C5 amended: in the Merge View, a union field present in a group is the
separator-join of the de-duplicated member values in first-occurrence order
of the (priority descending, filename, bibkey) row ordering — NOT sorted by
value — and every other non-ignored, non-provenance field takes the value of
the group member with the highest Source priority, ties broken by Source
name and then record key, both ascending. -/
theorem claimC5_amended (db : DB) (key : GrpKey) (f : String) (g : List GRow)
    (hmem : (f, g) ∈ mergedGroups db key)
    (hfI : f ∉ IGNORE_FIELDS) (hs1 : f ≠ "src") (hs2 : f ≠ "srctrickle") :
    ∃ r0 t, g = r0 :: t ∧ r0.field = f ∧
      (∀ r ∈ g, r.field = f ∧ r ∈ grpRows db key) ∧
      (∀ r ∈ grpRows db key, r.field = f → r ∈ g) ∧
      (∀ r ∈ g, r.priority < r0.priority ∨ (r0.priority = r.priority ∧
        (strLt r0.filename r.filename ∨ (r0.filename = r.filename ∧
          (strLt r0.bibkey r.bibkey ∨ r0.bibkey = r.bibkey))))) ∧
      List.lookup f (mergedEntryRaw (mergedGroups db key)) =
        some (if f ∈ UNION_FIELDS
              then sepJoin (dedupFirst (g.map (fun r => r.value)))
              else r0.value) ∧
      (dedupFirst (g.map (fun r => r.value))).Sublist (g.map (fun r => r.value)) ∧
      (dedupFirst (g.map (fun r => r.value))).Nodup ∧
      (∀ v, v ∈ dedupFirst (g.map (fun r => r.value)) ↔ v ∈ g.map (fun r => r.value)) := by
  have hsorted := grpRows_pairwise db key
  obtain ⟨hKeys, hSpec, _⟩ := groupByField_spec (grpRows db key) hsorted
  have hfg := hSpec (f, g) hmem
  obtain ⟨⟨r0, t, hg_eq, hf_eq, hg_head⟩, hg_mem, hg_comp⟩ := hfg
  have hg2 : g = r0 :: t := hg_eq
  have hf2 : f = r0.field := hf_eq
  refine ⟨r0, t, hg2, hf2.symm, ?_, ?_, ?_, ?_, ?_, ?_, ?_⟩
  · intro r hr
    exact ⟨(hg_mem r hr).1, (hg_mem r hr).2⟩
  · intro r hr hrf
    exact hg_comp r hr hrf
  · intro r hr
    have hle : rowLE r0 r := hg_head r hr
    have hrf : r0.field = r.field := by
      rw [← hf2]
      exact ((hg_mem r hr).1).symm
    exact (rowLE_same_field hrf).mp hle
  · have := mergedEntryRaw_lookup (mergedGroups db key) hKeys f g hmem hfI hs1 hs2
    rw [this]
    congr 1
    by_cases hU : f ∈ UNION_FIELDS
    · rw [if_pos hU, if_pos hU]
    · rw [if_neg hU, if_neg hU]
      rw [hg2]
      simp
  · exact dedupFirst_sublist _
  · exact dedupFirst_nodup _
  · intro v
    exact mem_dedupFirst _ v

/-- C5 counterexample: `isbn` is a union field, and the merged view of the
hash group joins the distinct values in priority order, giving "b, a" —
not the sorted join "a, b" that the claim asserts. -/
theorem claimC5_counterexample :
    (mergedEntryGrp dbC5 (GrpKey.byHash "h")).map (fun m => List.lookup "isbn" m)
      = some (some "b, a") ∧
    sepJoin (sortedDedup ["b", "a"]) = "a, b" ∧
    ("b, a" : String) ≠ "a, b" := by
  refine ⟨by decide, by decide, by decide⟩

/-- Witness for the amended C5 at the counterexample store. -/
theorem claimC5_amended_witness :
    List.lookup "isbn" (mergedEntryRaw (mergedGroups dbC5 (GrpKey.byHash "h")))
      = some "b, a" := by
  have h := claimC5_amended dbC5 (GrpKey.byHash "h") "isbn"
      [⟨"isbn", "b", 5, "a.bib", "k1"⟩, ⟨"isbn", "a", 1, "b.bib", "k2"⟩]
      (by decide) (by decide) (by decide) (by decide)
  obtain ⟨r0, t, hg, hr0f, _, _, _, hlook, _, _, _⟩ := h
  rw [if_pos (by decide : ("isbn" : String) ∈ UNION_FIELDS)] at hlook
  rw [hlook]
  rfl

theorem importEntries_spec : ∀ (es : List BibEntry) (fpk epk0 : Nat), ∀ e ∈ es,
    ∃ er ∈ (importEntries fpk epk0 es).1,
      er.bibkey = e.key ∧ er.file_pk = fpk ∧
      er.refid = (List.lookup REF_ID_FIELD e.fields).bind parseNat ∧
      er.hash = none ∧ er.srefid = none ∧ er.id = none ∧
      (⟨er.pk, ENTRYTYPE, e.etype⟩ : ValueRow) ∈ (importEntries fpk epk0 es).2 ∧
      (∀ kv ∈ e.fields, (⟨er.pk, kv.1, kv.2⟩ : ValueRow) ∈ (importEntries fpk epk0 es).2) := by
  intro es
  induction es with
  | nil =>
    intro fpk epk0 e hmem
    exact absurd hmem (by simp)
  | cons e0 es ih =>
    intro fpk epk0 e hmem
    rcases List.mem_cons.mp hmem with rfl | hmem2
    · refine ⟨⟨epk0, fpk, e.key, (List.lookup REF_ID_FIELD e.fields).bind parseNat,
        none, none, none⟩, List.mem_cons_self _ _, rfl, rfl, rfl, rfl, rfl, rfl, ?_, ?_⟩
      · apply List.mem_append_left
        exact List.mem_map.mpr ⟨(ENTRYTYPE, e.etype), List.mem_cons_self _ _, rfl⟩
      · intro kv hkv
        apply List.mem_append_left
        exact List.mem_map.mpr ⟨kv, List.mem_cons_of_mem _ hkv, rfl⟩
    · obtain ⟨er, hermem, hprops⟩ := ih fpk (epk0 + 1) e hmem2
      refine ⟨er, List.mem_cons_of_mem _ hermem,
        hprops.1, hprops.2.1, hprops.2.2.1, hprops.2.2.2.1, hprops.2.2.2.2.1,
        hprops.2.2.2.2.2.1, ?_, ?_⟩
      · exact List.mem_append_right _ hprops.2.2.2.2.2.2.1
      · intro kv hkv
        exact List.mem_append_right _ (hprops.2.2.2.2.2.2.2 kv hkv)

theorem importAux_spec : ∀ (bs : List Bibfile) (fpk epk : Nat), ∀ b ∈ bs, ∀ e ∈ b.entries,
    ∃ er ∈ (importAux fpk epk bs).entries,
      er.bibkey = e.key ∧
      er.refid = (List.lookup REF_ID_FIELD e.fields).bind parseNat ∧
      er.hash = none ∧ er.srefid = none ∧ er.id = none ∧
      (⟨er.pk, ENTRYTYPE, e.etype⟩ : ValueRow) ∈ (importAux fpk epk bs).values ∧
      (∀ kv ∈ e.fields, (⟨er.pk, kv.1, kv.2⟩ : ValueRow) ∈ (importAux fpk epk bs).values) := by
  intro bs
  induction bs with
  | nil =>
    intro fpk epk b hb
    exact absurd hb (by simp)
  | cons b0 bs ih =>
    intro fpk epk b hb e he
    rcases List.mem_cons.mp hb with rfl | hb2
    · obtain ⟨er, hermem, h1, h2, h3, h4, h5, h6, h7, h8⟩ :=
        importEntries_spec b.entries fpk epk e he
      refine ⟨er, List.mem_append_left _ hermem, h1, h3, h4, h5, h6,
        List.mem_append_left _ h7, fun kv hkv => List.mem_append_left _ (h8 kv hkv)⟩
    · obtain ⟨er, hermem, hprops⟩ :=
        ih (fpk + 1) (epk + b0.entries.length) b hb2 e he
      exact ⟨er, List.mem_append_right _ hermem,
        hprops.1, hprops.2.1, hprops.2.2.1, hprops.2.2.2.1, hprops.2.2.2.2.1,
        List.mem_append_right _ hprops.2.2.2.2.2.1,
        fun kv hkv => List.mem_append_right _ (hprops.2.2.2.2.2.2 kv hkv)⟩

/-- C4 amended: the Importer reads the prior identifier out of the field map
(without removing it) and stores it on the Record row; the type tag is
stored as a Field Value under the reserved ENTRYTYPE name; and every field
of the record — including the prior-identifier field itself when present —
is ALSO stored as a Field Value (the prior-identifier field is NOT
excluded). -/
theorem claimC4_amended (bibfiles : List Bibfile) (b : Bibfile) (e : BibEntry)
    (hb : b ∈ bibfiles) (he : e ∈ b.entries) :
    ∃ er ∈ (import_bibfiles bibfiles).entries,
      er.bibkey = e.key ∧
      er.refid = (List.lookup REF_ID_FIELD e.fields).bind parseNat ∧
      er.hash = none ∧ er.srefid = none ∧ er.id = none ∧
      (⟨er.pk, ENTRYTYPE, e.etype⟩ : ValueRow) ∈ (import_bibfiles bibfiles).values ∧
      (∀ kv ∈ e.fields,
        (⟨er.pk, kv.1, kv.2⟩ : ValueRow) ∈ (import_bibfiles bibfiles).values) :=
  importAux_spec bibfiles 1 1 b hb e he

/-- C4 counterexample: the prior-identifier field IS stored as a Value row
under its reserved name (it is read with `.get`, not popped, and
`e.fields.items()` still contains it), refuting the claimed exclusion; the
prior id is read onto the Record row and the type tag is stored under
ENTRYTYPE as claimed. -/
theorem claimC4_counterexample :
    (⟨1, "glottolog_ref_id", "7"⟩ : ValueRow) ∈ (import_bibfiles [bfC4]).values ∧
    (import_bibfiles [bfC4]).entries = [⟨1, 1, "k", some 7, none, none, none⟩] ∧
    (⟨1, "ENTRYTYPE", "book"⟩ : ValueRow) ∈ (import_bibfiles [bfC4]).values := by
  refine ⟨by decide, by decide, by decide⟩

/-- Witness for the amended C4 at the concrete bib file. -/
theorem claimC4_amended_witness :
    ∃ er ∈ (import_bibfiles [bfC4]).entries,
      er.bibkey = "k" ∧
      er.refid = (List.lookup REF_ID_FIELD [("glottolog_ref_id", "7"), ("title", "T")]).bind parseNat ∧
      er.hash = none ∧ er.srefid = none ∧ er.id = none ∧
      (⟨er.pk, ENTRYTYPE, "book"⟩ : ValueRow) ∈ (import_bibfiles [bfC4]).values ∧
      (∀ kv ∈ ([("glottolog_ref_id", "7"), ("title", "T")] : FieldMap),
        (⟨er.pk, kv.1, kv.2⟩ : ValueRow) ∈ (import_bibfiles [bfC4]).values) :=
  claimC4_amended [bfC4] bfC4 ⟨"k", "book", [("glottolog_ref_id", "7"), ("title", "T")]⟩
    (List.mem_singleton_self _) (List.mem_singleton_self _)

/-- C7: invoking trickle-back on a Store that is not up to date with the
current Source files (any name, size or mtime mismatch makes `same_as`
false) fails with the fatal staleness error before any write is computed —
the result carries no write action. -/
theorem claimC7 (db : DB) (bibfiles : List Bibfile)
    (hallid : allidCheck db = true) (hstale : same_as db bibfiles = false) :
    trickle db bibfiles = .error .stale := by
  unfold trickle
  rw [hallid, hstale]
  simp

/-- Witness for C7: a size change alone trips the staleness error. -/
theorem claimC7_witness :
    trickle dbC7 [⟨"a.bib", 11, 0, 1, []⟩] = .error .stale :=
  claimC7 dbC7 [⟨"a.bib", 11, 0, 1, []⟩] (by decide) (by decide)

theorem chunksAux_fuel_congr (n : Nat) (hn : 1 ≤ n) : ∀ (fuel : Nat) (l : List Nat),
    l.length ≤ fuel → chunksAux n fuel l = chunks n l := by
  intro fuel
  induction fuel using Nat.strong_induction_on with
  | _ fuel ih =>
    intro l hl
    cases fuel with
    | zero =>
      have : l = [] := List.length_eq_zero.mp (Nat.le_zero.mp hl)
      subst this
      rfl
    | succ f =>
      cases l with
      | nil => rfl
      | cons x xs =>
        show (x :: xs).take n :: chunksAux n f ((x :: xs).drop n)
          = chunks n (x :: xs)
        unfold chunks
        show _ = (x :: xs).take n :: chunksAux n xs.length ((x :: xs).drop n)
        have hdrop : ((x :: xs).drop n).length ≤ f := by
          rw [List.length_drop]
          simp only [List.length_cons] at hl ⊢
          omega
        have hdrop2 : ((x :: xs).drop n).length ≤ xs.length := by
          rw [List.length_drop]
          simp only [List.length_cons]
          omega
        have hxs : xs.length < f + 1 := by
          simp only [List.length_cons] at hl
          omega
        rw [ih f (by omega) _ hdrop, ih xs.length hxs _ hdrop2]

theorem chunks_cons_eq (n : Nat) (l : List Nat) (hn : 1 ≤ n) (hl : l ≠ []) :
    chunks n l = l.take n :: chunks n (l.drop n) := by
  cases l with
  | nil => exact absurd rfl hl
  | cons x xs =>
    show chunksAux n (x :: xs).length (x :: xs) = _
    simp only [List.length_cons]
    show (x :: xs).take n :: chunksAux n xs.length ((x :: xs).drop n) = _
    congr 1
    apply chunksAux_fuel_congr n hn
    rw [List.length_drop]
    simp only [List.length_cons]
    omega

theorem headD_le_of_pairwise_lt {l : List Nat} (h : l.Pairwise (· < ·)) :
    ∀ x ∈ l, l.headD 0 ≤ x := by
  cases l with
  | nil => intro x hx; exact absurd hx (by simp)
  | cons a t =>
    intro x hx
    rcases List.mem_cons.mp hx with rfl | hx2
    · exact le_refl _
    · exact le_of_lt ((List.pairwise_cons.mp h).1 x hx2)

theorem mem_le_getLastD_of_pairwise_lt : ∀ (l : List Nat),
    l.Pairwise (· < ·) → ∀ x ∈ l, x ≤ l.getLastD 0 := by
  intro l
  induction l with
  | nil => intro _ x hx; exact absurd hx (by simp)
  | cons a t ih =>
    intro h x hx
    cases t with
    | nil =>
      rcases List.mem_singleton.mp hx with rfl
      exact le_refl _
    | cons b u =>
      have hgl : (a :: b :: u).getLastD 0 = (b :: u).getLastD 0 := by
        simp [List.getLastD_cons]
      rw [hgl]
      rcases List.mem_cons.mp hx with rfl | hx2
      · have hab : x < b := (List.pairwise_cons.mp h).1 b (List.mem_cons_self _ _)
        have := ih (List.pairwise_cons.mp h).2 b (List.mem_cons_self _ _)
        omega
      · exact ih (List.pairwise_cons.mp h).2 x hx2

theorem headD_mem_of_ne_nil {l : List Nat} (h : l ≠ []) : l.headD 0 ∈ l := by
  cases l with
  | nil => exact absurd rfl h
  | cons a t => exact List.mem_cons_self _ _

theorem getLastD_mem_of_ne_nil : ∀ (l : List Nat), l ≠ [] → l.getLastD 0 ∈ l := by
  intro l
  induction l with
  | nil => intro h; exact absurd rfl h
  | cons a t ih =>
    intro _
    cases t with
    | nil => exact List.mem_singleton_self _
    | cons b u =>
      have hgl : (a :: b :: u).getLastD 0 = (b :: u).getLastD 0 := by
        simp [List.getLastD_cons]
      rw [hgl]
      exact List.mem_cons_of_mem a (ih (by simp))

/-- Chunking a strictly ascending list: chunks are nonempty sublists whose
(first, last) ranges bound their members, every element is chunked, and the
chunks are pairwise elementwise-ascending. -/
theorem chunks_spec : ∀ (len : Nat) (l : List Nat), l.length ≤ len →
    ∀ n, 1 ≤ n → l.Pairwise (· < ·) →
    (∀ c ∈ chunks n l, c ≠ [] ∧ (∀ x ∈ c, x ∈ l) ∧ c.Pairwise (· < ·) ∧
      (∀ x ∈ c, c.headD 0 ≤ x ∧ x ≤ c.getLastD 0)) ∧
    (∀ x ∈ l, ∃ c ∈ chunks n l, x ∈ c) ∧
    ((chunks n l).Pairwise (fun c1 c2 => ∀ x ∈ c1, ∀ y ∈ c2, x < y)) := by
  intro len
  induction len with
  | zero =>
    intro l hl
    have : l = [] := List.length_eq_zero.mp (Nat.le_zero.mp hl)
    subst this
    intro n _ _
    refine ⟨?_, ?_, ?_⟩ <;> simp [chunks, chunksAux]
  | succ len ih =>
    intro l hl n hn hsort
    cases hltor : l with
    | nil =>
      refine ⟨?_, ?_, ?_⟩ <;> simp [chunks, chunksAux]
    | cons x xs =>
      rw [← hltor]
      have hlne : l ≠ [] := by
        rw [hltor]
        simp
      rw [chunks_cons_eq n l hn hlne]
      have htake_sub : ∀ y ∈ l.take n, y ∈ l := fun y hy => List.mem_of_mem_take hy
      have hdrop_sub : ∀ y ∈ l.drop n, y ∈ l := fun y hy => List.mem_of_mem_drop hy
      have htake_sorted : (l.take n).Pairwise (· < ·) :=
        hsort.sublist (List.take_sublist n l)
      have hdrop_sorted : (l.drop n).Pairwise (· < ·) :=
        hsort.sublist (List.drop_sublist n l)
      have hcross : ∀ a ∈ l.take n, ∀ b ∈ l.drop n, a < b := by
        have hsplit : (l.take n ++ l.drop n).Pairwise (· < ·) := by
          rw [List.take_append_drop]
          exact hsort
        exact (List.pairwise_append.mp hsplit).2.2
      have htake_ne : l.take n ≠ [] := by
        rw [hltor]
        cases n with
        | zero => omega
        | succ m => simp
      have hdrop_len : (l.drop n).length ≤ len := by
        rw [List.length_drop]
        rw [hltor] at hl ⊢
        simp only [List.length_cons] at hl ⊢
        omega
      obtain ⟨ihChunks, ihCov, ihPair⟩ := ih (l.drop n) hdrop_len n hn hdrop_sorted
      refine ⟨?_, ?_, ?_⟩
      · intro c hc
        rcases List.mem_cons.mp hc with rfl | hc2
        · exact ⟨htake_ne, htake_sub, htake_sorted,
            fun y hy => ⟨headD_le_of_pairwise_lt htake_sorted y hy,
              mem_le_getLastD_of_pairwise_lt _ htake_sorted y hy⟩⟩
        · obtain ⟨h1, h2, h3, h4⟩ := ihChunks c hc2
          exact ⟨h1, fun y hy => hdrop_sub y (h2 y hy), h3, h4⟩
      · intro y hy
        by_cases hyt : y ∈ l.take n
        · exact ⟨l.take n, List.mem_cons_self _ _, hyt⟩
        · have : y ∈ l.take n ++ l.drop n := by
            rw [List.take_append_drop]
            exact hy
          rcases List.mem_append.mp this with h | h
          · exact absurd h hyt
          · obtain ⟨c, hc, hyc⟩ := ihCov y h
            exact ⟨c, List.mem_cons_of_mem _ hc, hyc⟩
      · refine List.pairwise_cons.mpr ⟨?_, ihPair⟩
        intro c2 hc2 a ha b hb
        exact hcross a ha b ((ihChunks c2 hc2).2.1 b hb)

theorem pairwise_mem_cases {R : α → α → Prop} : ∀ {l : List α}, l.Pairwise R →
    ∀ {x y}, x ∈ l → y ∈ l → x = y ∨ R x y ∨ R y x := by
  intro l
  induction l with
  | nil =>
    intro _ x y hx
    exact absurd hx (by simp)
  | cons a t ih =>
    intro h x y hx hy
    have hhead := (List.pairwise_cons.mp h).1
    have htail := (List.pairwise_cons.mp h).2
    rcases List.mem_cons.mp hx with rfl | hx2
    · rcases List.mem_cons.mp hy with rfl | hy2
      · exact Or.inl rfl
      · exact Or.inr (Or.inl (hhead y hy2))
    · rcases List.mem_cons.mp hy with rfl | hy2
      · exact Or.inr (Or.inr (hhead x hx2))
      · exact ih htail hx2 hy2

/-- C10: for every window size at least 1, the (first, last) pairs yielded
by `Entry.windowed` over the `Entry.id` column partition the distinct id
values: each window has first ≤ last, windows are strictly increasing and
non-overlapping, and the id of every Record falls in the inclusive range of
exactly one window — so the windowed iteration of `BaseDatabase.__iter__`
visits each id group exactly once. -/
theorem claimC10 (db : DB) (size : Nat) (hsize : 1 ≤ size) :
    (∀ w ∈ windowedIds db size, w.1 ≤ w.2) ∧
    ((windowedIds db size).Pairwise (fun w1 w2 => w1.2 < w2.1)) ∧
    (∀ e ∈ db.entries, ∀ i : Nat, e.id = some i →
      ∃ w, w ∈ windowedIds db size ∧ w.1 ≤ i ∧ i ≤ w.2 ∧
        ∀ w2 ∈ windowedIds db size, w2.1 ≤ i → i ≤ w2.2 → w2 = w) := by
  set vals := db.entries.filterMap (fun e => e.id) with hvals
  set sk := List.insertionSort (· ≤ ·) (dedupFirst vals) with hsk
  have hperm : List.Perm sk (dedupFirst vals) := List.perm_insertionSort _ _
  have hsorted_le : sk.Pairwise (· ≤ ·) := List.sorted_insertionSort _ _
  have hnodup : sk.Nodup := hperm.nodup_iff.mpr (dedupFirst_nodup vals)
  have hsorted : sk.Pairwise (· < ·) := by
    have hand := List.Pairwise.and hsorted_le hnodup
    exact hand.imp (fun hab => lt_of_le_of_ne hab.1 hab.2)
  have hmem_sk : ∀ x, x ∈ sk ↔ x ∈ vals := by
    intro x
    rw [hperm.mem_iff, mem_dedupFirst]
  obtain ⟨hChunks, hCov, hPair⟩ := chunks_spec sk.length sk (le_refl _) size hsize hsorted
  have hwin : windowedIds db size
      = (chunks size sk).map (fun c => (c.headD 0, c.getLastD 0)) := rfl
  refine ⟨?_, ?_, ?_⟩
  · intro w hw
    rw [hwin] at hw
    obtain ⟨c, hc, rfl⟩ := List.mem_map.mp hw
    obtain ⟨hne, _, _, hbound⟩ := hChunks c hc
    exact (hbound _ (headD_mem_of_ne_nil hne)).2
  · rw [hwin, List.pairwise_map]
    refine List.Pairwise.imp_of_mem ?_ hPair
    intro c1 c2 hc1 hc2 h12
    exact h12 _ (getLastD_mem_of_ne_nil c1 (hChunks c1 hc1).1)
      _ (headD_mem_of_ne_nil (hChunks c2 hc2).1)
  · intro e he i hid
    have hiv : i ∈ vals := by
      rw [hvals]
      exact List.mem_filterMap.mpr ⟨e, he, hid⟩
    have hisk : i ∈ sk := (hmem_sk i).mpr hiv
    obtain ⟨c, hc, hic⟩ := hCov i hisk
    refine ⟨(c.headD 0, c.getLastD 0), ?_, ?_, ?_, ?_⟩
    · rw [hwin]
      exact List.mem_map.mpr ⟨c, hc, rfl⟩
    · exact ((hChunks c hc).2.2.2 i hic).1
    · exact ((hChunks c hc).2.2.2 i hic).2
    · intro w2 hw2 hw21 hw22
      rw [hwin] at hw2
      obtain ⟨c2, hc2, rfl⟩ := List.mem_map.mp hw2
      rcases pairwise_mem_cases hPair hc2 hc with rfl | h12 | h21
      · rfl
      · exfalso
        have hlast : c2.getLastD 0 ∈ c2 := getLastD_mem_of_ne_nil c2 (hChunks c2 hc2).1
        have := h12 _ hlast i hic
        simp only [] at hw22
        omega
      · exfalso
        have hhead : c2.headD 0 ∈ c2 := headD_mem_of_ne_nil (hChunks c2 hc2).1
        have := h21 i hic _ hhead
        simp only [] at hw21
        omega

/-- Witness for C10: id 2 falls in exactly one window of size 2. -/
theorem claimC10_witness :
    ∃ w, w ∈ windowedIds dbC10 2 ∧ w.1 ≤ 2 ∧ 2 ≤ w.2 ∧
      ∀ w2 ∈ windowedIds dbC10 2, w2.1 ≤ 2 → 2 ≤ w2.2 → w2 = w :=
  (claimC10 dbC10 2 (by decide)).2.2 ⟨3, 1, "c", none, none, none, some 2⟩
    (by decide) 2 rfl

/-! ## Supporting lemmas for the resolver -/

theorem mapM_some_mem {f : α → Option β} : ∀ {l : List α} {l2 : List β},
    l.mapM f = some l2 → ∀ y ∈ l2, ∃ x ∈ l, f x = some y := by
  intro l
  induction l with
  | nil =>
    intro l2 h y hy
    simp only [List.mapM_nil, pure, Option.some.injEq] at h
    subst h
    exact absurd hy (by simp)
  | cons x xs ih =>
    intro l2 h y hy
    rw [List.mapM_cons] at h
    cases hfx : f x with
    | none => rw [hfx] at h; exact absurd h (by simp [Bind.bind])
    | some b =>
      rw [hfx] at h
      cases hrest : xs.mapM f with
      | none => rw [hrest] at h; exact absurd h (by simp [Bind.bind])
      | some bs =>
        rw [hrest] at h
        simp only [Bind.bind, Option.bind, pure, Option.some.injEq] at h
        subst h
        rcases List.mem_cons.mp hy with rfl | hy2
        · exact ⟨x, List.mem_cons_self _ _, hfx⟩
        · obtain ⟨x0, hx0, hfx0⟩ := ih hrest y hy2
          exact ⟨x0, List.mem_cons_of_mem _ hx0, hfx0⟩

theorem mapM_eq_map_of_all_some {f : α → Option β} {g : α → β} : ∀ {l : List α},
    (∀ x ∈ l, f x = some (g x)) → l.mapM f = some (l.map g) := by
  intro l
  induction l with
  | nil => intro _; rfl
  | cons x xs ih =>
    intro h
    rw [List.mapM_cons, h x (List.mem_cons_self _ _),
      ih (fun y hy => h y (List.mem_cons_of_mem _ hy))]
    rfl

theorem lookup_mem [BEq α] [LawfulBEq α] {k : α} {v : β} :
    ∀ {l : List (α × β)}, List.lookup k l = some v → (k, v) ∈ l := by
  intro l
  induction l with
  | nil => intro h; simp [List.lookup] at h
  | cons p ps ih =>
    intro h
    obtain ⟨a, b⟩ := p
    cases hbeq : (k == a) with
    | true =>
      have ha : k = a := eq_of_beq hbeq
      simp only [List.lookup, hbeq] at h
      rw [Option.some.injEq] at h
      subst h
      subst ha
      exact List.mem_cons_self _ _
    | false =>
      simp only [List.lookup, hbeq] at h
      exact List.mem_cons_of_mem _ (ih h)

theorem argminFold_split (f : α → ℚ) : ∀ (xs : List α) (acc : α),
    ∃ l1 l2, acc :: xs = l1 ++ argminFold f acc xs :: l2
      ∧ (∀ y ∈ l1, f (argminFold f acc xs) < f y)
      ∧ (∀ y ∈ l2, f (argminFold f acc xs) ≤ f y) := by
  intro xs
  induction xs with
  | nil =>
    intro acc
    exact ⟨[], [], rfl, by simp, by simp⟩
  | cons y ys ih =>
    intro acc
    by_cases hy : f y < f acc
    · have hstep : argminFold f acc (y :: ys) = argminFold f y ys := by
        simp [argminFold, hy]
      rw [hstep]
      obtain ⟨l1, l2, heq, hstrict, hle⟩ := ih y
      have hmy : f (argminFold f y ys) ≤ f y := by
        have hymem : y ∈ y :: ys := List.mem_cons_self _ _
        rw [heq] at hymem
        rcases List.mem_append.mp hymem with h1 | h1
        · exact le_of_lt (hstrict y h1)
        · rcases List.mem_cons.mp h1 with heq2 | h1
          · exact le_of_eq (congrArg f heq2.symm)
          · exact hle y h1
      refine ⟨acc :: l1, l2, ?_, ?_, ?_⟩
      · rw [List.cons_append, ← heq]
      · intro z hz
        rcases List.mem_cons.mp hz with rfl | hz2
        · exact lt_of_le_of_lt hmy hy
        · exact hstrict z hz2
      · exact hle
    · have hstep : argminFold f acc (y :: ys) = argminFold f acc ys := by
        simp [argminFold, hy]
      rw [hstep]
      obtain ⟨l1, l2, heq, hstrict, hle⟩ := ih acc
      cases hl1 : l1 with
      | nil =>
        rw [hl1, List.nil_append] at heq
        have hacc : acc = argminFold f acc ys := by
          have := congrArg (fun l => List.headD l acc) heq
          simpa using this
        have hys : ys = l2 := by
          have := congrArg List.tail heq
          simpa using this
        refine ⟨[], y :: ys, ?_, by simp, ?_⟩
        · rw [List.nil_append, ← hacc]
        · intro z hz
          rcases List.mem_cons.mp hz with rfl | hz2
          · rw [← hacc]
            exact not_lt.mp hy
          · rw [hys] at hz2
            exact hle z hz2
      | cons a l1t =>
        rw [hl1] at heq hstrict
        have hacc : acc = a := by
          have := congrArg (fun l => List.headD l acc) heq
          simpa using this
        have hys : ys = l1t ++ argminFold f acc ys :: l2 := by
          have := congrArg List.tail heq
          simpa using this
        have hma : f (argminFold f acc ys) < f acc := by
          have := hstrict a (List.mem_cons_self _ _)
          rw [← hacc] at this
          exact this
        refine ⟨acc :: y :: l1t, l2, ?_, ?_, ?_⟩
        · rw [show (acc :: y :: l1t) ++ argminFold f acc ys :: l2
              = acc :: y :: (l1t ++ argminFold f acc ys :: l2) by simp, ← hys]
        · intro z hz
          rcases List.mem_cons.mp hz with rfl | hz2
          · exact hma
          · rcases List.mem_cons.mp hz2 with rfl | hz3
            · exact lt_of_lt_of_le hma (not_lt.mp hy)
            · exact hstrict z (List.mem_cons_of_mem _ hz3)
        · exact hle

theorem argminFirst_split {f : α → ℚ} {l : List α} {x : α}
    (h : argminFirst f l = some x) :
    ∃ l1 l2, l = l1 ++ x :: l2 ∧ (∀ y ∈ l1, f x < f y) ∧ (∀ y ∈ l2, f x ≤ f y) := by
  cases l with
  | nil => simp [argminFirst] at h
  | cons a xs =>
    simp only [argminFirst, Option.some.injEq] at h
    obtain ⟨l1, l2, heq, hstrict, hle⟩ := argminFold_split f xs a
    rw [h] at heq hstrict hle
    exact ⟨l1, l2, heq, hstrict, hle⟩

theorem argminFirst_mem {f : α → ℚ} {l : List α} {x : α}
    (h : argminFirst f l = some x) : x ∈ l := by
  obtain ⟨l1, l2, heq, _, _⟩ := argminFirst_split h
  rw [heq]
  exact List.mem_append_right _ (List.mem_cons_self _ _)

theorem argminFirst_min {f : α → ℚ} {l : List α} {x : α}
    (h : argminFirst f l = some x) : ∀ y ∈ l, f x ≤ f y := by
  obtain ⟨l1, l2, heq, hstrict, hle⟩ := argminFirst_split h
  intro y hy
  rw [heq] at hy
  rcases List.mem_append.mp hy with h1 | h1
  · exact le_of_lt (hstrict y h1)
  · rcases List.mem_cons.mp h1 with rfl | h1
    · exact le_refl _
    · exact hle y h1

theorem foldl_max_mono : ∀ (l : List EntryRow) (a b : Nat), a ≤ b →
    l.foldl (fun acc e => max acc (e.refid.getD 0)) a
      ≤ l.foldl (fun acc e => max acc (e.refid.getD 0)) b := by
  intro l
  induction l with
  | nil => intro a b h; exact h
  | cons z zs ih =>
    intro a b h
    simp only [List.foldl_cons]
    exact ih _ _ (by omega)

theorem foldl_max_init : ∀ (l : List EntryRow) (a : Nat),
    a ≤ l.foldl (fun acc e => max acc (e.refid.getD 0)) a := by
  intro l
  induction l with
  | nil => intro a; exact le_refl _
  | cons z zs ih =>
    intro a
    simp only [List.foldl_cons]
    calc a ≤ max a (z.refid.getD 0) := le_max_left _ _
      _ ≤ _ := ih _

theorem foldl_max_mem : ∀ (l : List EntryRow) (acc : Nat) (e : EntryRow), e ∈ l →
    ∀ r : Nat, e.refid = some r →
    r ≤ l.foldl (fun a x => max a (x.refid.getD 0)) acc := by
  intro l
  induction l with
  | nil =>
    intro acc e he
    exact absurd he (by simp)
  | cons x xs ih =>
    intro acc e he r hr
    rcases List.mem_cons.mp he with rfl | he2
    · simp only [List.foldl_cons]
      calc r ≤ max acc (e.refid.getD 0) := by
            rw [hr]
            simp only [Option.getD_some]
            omega
        _ ≤ _ := foldl_max_init _ _
    · simp only [List.foldl_cons]
      exact ih _ e he2 r hr

theorem maxRefid_le (db : DB) : ∀ e ∈ db.entries, ∀ r : Nat,
    e.refid = some r → r ≤ maxRefid db := by
  intro e he r hr
  exact foldl_max_mem db.entries 0 e he r hr

theorem idxOf_some_of_mem : ∀ {l : List String} {h : String}, h ∈ l →
    ∃ k, idxOf l h = some k := by
  intro l
  induction l with
  | nil =>
    intro h hh
    exact absurd hh (by simp)
  | cons x xs ih =>
    intro h hh
    by_cases hxh : x = h
    · exact ⟨0, by simp [idxOf, hxh]⟩
    · rcases List.mem_cons.mp hh with rfl | hh2
      · exact absurd rfl hxh
      · obtain ⟨k, hk⟩ := ih hh2
        exact ⟨k + 1, by simp [idxOf, hxh, hk]⟩

theorem idxOf_get : ∀ {l : List String} {h : String} {k : Nat},
    idxOf l h = some k → ∃ hk : k < l.length, l.get ⟨k, hk⟩ = h := by
  intro l
  induction l with
  | nil => intro h k hk; simp [idxOf] at hk
  | cons x xs ih =>
    intro h k hk
    by_cases hxh : x = h
    · simp only [idxOf, if_pos hxh, Option.some.injEq] at hk
      subst hk
      exact ⟨by simp, hxh⟩
    · simp only [idxOf, if_neg hxh] at hk
      cases hrec : idxOf xs h with
      | none => rw [hrec] at hk; simp at hk
      | some k0 =>
        rw [hrec] at hk
        rw [show ((some k0).map (fun k => k + 1) : Option Nat) = some (k0 + 1) from rfl,
          Option.some.injEq] at hk
        subst hk
        obtain ⟨hk0, hget⟩ := ih hrec
        refine ⟨?_, ?_⟩
        · simp only [List.length_cons]
          omega
        · exact hget

theorem idxOf_mem : ∀ {l : List String} {h : String} {k : Nat},
    idxOf l h = some k → h ∈ l := by
  intro l h k hk
  obtain ⟨hlt, hget⟩ := idxOf_get hk
  rw [← hget]
  exact List.get_mem _ _ hlt

theorem strLE_and_ne_strLt {a b : String} (h1 : strLE a b) (h2 : a ≠ b) :
    strLt a b := by
  rcases strLt_trichotomy a b with h | h | h
  · exact h
  · exfalso
    have hx : lltInt (charInts b) (charInts a) = true := h
    have hy : lltInt (charInts b) (charInts a) = false := h1
    rw [hx] at hy
    exact absurd hy (by simp)
  · exact absurd h h2

theorem sorted_dedup_pairwise_strLt (l : List String) :
    (dedupFirst (List.insertionSort strLE l)).Pairwise strLt := by
  have hsorted : (List.insertionSort strLE l).Pairwise strLE :=
    List.sorted_insertionSort _ _
  have hp : (dedupFirst (List.insertionSort strLE l)).Pairwise strLE :=
    hsorted.sublist (dedupFirst_sublist _)
  have hnodup : (dedupFirst (List.insertionSort strLE l)).Nodup :=
    dedupFirst_nodup _
  exact (hp.and hnodup).imp (fun hab => strLE_and_ne_strLt hab.1 hab.2)

theorem newHashes_pairwise (db : DB) : (newHashes db).Pairwise strLt :=
  sorted_dedup_pairwise_strLt _

theorem mem_newHashes (db : DB) (h : String) :
    h ∈ newHashes db ↔ ∃ e ∈ db.entries, e.id = none ∧ e.hash = some h := by
  unfold newHashes
  rw [mem_dedupFirst, (List.perm_insertionSort _ _).mem_iff, List.mem_filterMap]
  constructor
  · rintro ⟨e, he, hfe⟩
    by_cases hid : e.id.isNone
    · rw [if_pos hid] at hfe
      exact ⟨e, he, Option.isNone_iff_eq_none.mp hid, hfe⟩
    · rw [if_neg hid] at hfe
      exact absurd hfe (by simp)
  · rintro ⟨e, he, hid, hh⟩
    exact ⟨e, he, by rw [if_pos (Option.isNone_iff_eq_none.mpr hid)]; exact hh⟩

theorem idxOf_inj {l : List String} {h1 h2 : String} {k : Nat}
    (ha : idxOf l h1 = some k) (hb : idxOf l h2 = some k) : h1 = h2 := by
  obtain ⟨hk1, hg1⟩ := idxOf_get ha
  obtain ⟨hk2, hg2⟩ := idxOf_get hb
  have : (⟨k, hk1⟩ : Fin l.length) = ⟨k, hk2⟩ := Fin.ext rfl
  rw [← hg1, ← hg2, this]

theorem bnot_any_prop {l : List α} {p : α → Bool} (h : (!(l.any p)) = true) :
    ∀ x ∈ l, p x = false := by
  intro x hx
  rw [Bool.not_eq_true'] at h
  cases hp : p x with
  | false => rfl
  | true =>
    have : l.any p = true := List.any_eq_true.mpr ⟨x, hx, hp⟩
    rw [this] at h
    exact absurd h (by simp)

theorem allhash_prop {db : DB} (hc : allhashCheck db = true) :
    ∀ e ∈ db.entries, ∃ h, e.hash = some h := by
  intro e he
  have := List.all_eq_true.mp hc e he
  cases hh : e.hash with
  | none => rw [hh] at this; exact absurd this (by simp)
  | some h => exact ⟨h, rfl⟩

theorem allid_prop {db : DB} (hc : allidCheck db = true) :
    ∀ e ∈ db.entries, ∃ i, e.id = some i := by
  intro e he
  have := List.all_eq_true.mp hc e he
  cases hh : e.id with
  | none => rw [hh] at this; exact absurd this (by simp)
  | some i => exact ⟨i, rfl⟩

theorem nosplits_prop {db : DB} (hc : nosplitsCheck db = true) :
    ∀ e1 ∈ db.entries, ∀ e2 ∈ db.entries, ∀ v : Nat,
    e1.srefid = some v → e2.srefid = some v →
    ∀ a b : String, e1.hash = some a → e2.hash = some b → a = b := by
  intro e1 h1m e2 h2m v hv1 hv2 a b ha hb
  have houter := bnot_any_prop hc e1 h1m
  have hinner := (List.any_eq_false.mp houter) e2 h2m
  by_contra hne
  apply hinner
  rw [Bool.and_eq_true]
  constructor
  · show sqlEqNat e2.srefid e1.srefid = true
    rw [hv1, hv2]
    simp [sqlEqNat]
  · show sqlNeStr e2.hash e1.hash = true
    rw [hb, ha]
    show (b != a) = true
    rw [bne_iff_ne]
    exact fun hc2 => hne hc2.symm

theorem nomerges_prop {db : DB} (hc : nomergesCheck db = true) :
    ∀ e1 ∈ db.entries, ∀ e2 ∈ db.entries, ∀ h : String,
    e1.hash = some h → e2.hash = some h →
    ∀ a b : Nat, e1.id = some a → e2.id = some b → a = b := by
  intro e1 h1m e2 h2m h hh1 hh2 a b ha hb
  have houter := bnot_any_prop hc e1 h1m
  have hinner := (List.any_eq_false.mp houter) e2 h2m
  by_contra hne
  apply hinner
  rw [Bool.and_eq_true]
  constructor
  · show sqlEqStr e2.hash e1.hash = true
    rw [hh1, hh2]
    simp [sqlEqStr]
  · show sqlNeNat e2.id e1.id = true
    rw [hb, ha]
    show (b != a) = true
    rw [bne_iff_ne]
    exact fun hc2 => hne hc2.symm

theorem onetoone_diffid_prop {db : DB} (hc : onetooneCheck db = true) :
    ∀ e1 ∈ db.entries, ∀ e2 ∈ db.entries, ∀ h : String,
    e1.hash = some h → e2.hash = some h →
    ∀ a b : Nat, e1.id = some a → e2.id = some b → a = b := by
  intro e1 h1m e2 h2m h hh1 hh2 a b ha hb
  have houter := bnot_any_prop hc e1 h1m
  have hinner := (List.any_eq_false.mp houter) e2 h2m
  by_contra hne
  apply hinner
  rw [Bool.or_eq_true]
  left
  rw [Bool.and_eq_true]
  constructor
  · show sqlEqStr e2.hash e1.hash = true
    rw [hh1, hh2]
    simp [sqlEqStr]
  · show sqlNeNat e2.id e1.id = true
    rw [hb, ha]
    show (b != a) = true
    rw [bne_iff_ne]
    exact fun hc2 => hne hc2.symm

/-! ## Per-entry shapes of the resolver stage updates -/

theorem sqlEqStr_decode {a b : Option String} (h : sqlEqStr a b = true) :
    ∃ x, a = some x ∧ b = some x := by
  cases a with
  | none => simp [sqlEqStr] at h
  | some x =>
    cases b with
    | none => simp [sqlEqStr] at h
    | some y =>
      have : x == y := h
      exact ⟨x, rfl, by rw [beq_iff_eq.mp this]⟩

theorem resetUpd_hash (e : EntryRow) : (resetUpd e).hash = e.hash := rfl

theorem resetUpd_refid (e : EntryRow) : (resetUpd e).refid = e.refid := rfl

theorem resetUpd_srefid (e : EntryRow) : (resetUpd e).srefid = e.refid := rfl

theorem resetUpd_id (e : EntryRow) : (resetUpd e).id = none := rfl

theorem splitUpd_cases (c : List (Nat × String)) (e : EntryRow) :
    splitUpd c e = e ∨ splitUpd c e = { e with srefid := none } := by
  unfold splitUpd
  split
  · split
    · split
      · exact Or.inr rfl
      · exact Or.inl rfl
    · exact Or.inl rfl
  · exact Or.inl rfl

theorem splitUpd_hash (c : List (Nat × String)) (e : EntryRow) :
    (splitUpd c e).hash = e.hash := by
  rcases splitUpd_cases c e with h | h <;> rw [h]

theorem splitUpd_refid (c : List (Nat × String)) (e : EntryRow) :
    (splitUpd c e).refid = e.refid := by
  rcases splitUpd_cases c e with h | h <;> rw [h]

theorem splitUpd_id (c : List (Nat × String)) (e : EntryRow) :
    (splitUpd c e).id = e.id := by
  rcases splitUpd_cases c e with h | h <;> rw [h]

theorem splitUpd_srefid (c : List (Nat × String)) (e : EntryRow) :
    (splitUpd c e).srefid = e.srefid ∨ (splitUpd c e).srefid = none := by
  rcases splitUpd_cases c e with h | h <;> rw [h]
  · exact Or.inl rfl
  · exact Or.inr rfl

theorem mergeUpd_cases (c : List (String × Nat)) (e : EntryRow) :
    mergeUpd c e = e ∨ ∃ h w, e.hash = some h ∧ List.lookup h c = some w ∧
      mergeUpd c e = { e with id := some w } := by
  unfold mergeUpd
  split
  next h heq =>
    split
    next w heq2 =>
      split
      · exact Or.inr ⟨h, w, heq, heq2, rfl⟩
      · exact Or.inl rfl
    next => exact Or.inl rfl
  next => exact Or.inl rfl

theorem mergeUpd_hash (c : List (String × Nat)) (e : EntryRow) :
    (mergeUpd c e).hash = e.hash := by
  rcases mergeUpd_cases c e with h | ⟨_, _, _, _, h⟩ <;> rw [h]

theorem mergeUpd_refid (c : List (String × Nat)) (e : EntryRow) :
    (mergeUpd c e).refid = e.refid := by
  rcases mergeUpd_cases c e with h | ⟨_, _, _, _, h⟩ <;> rw [h]

theorem mergeUpd_srefid (c : List (String × Nat)) (e : EntryRow) :
    (mergeUpd c e).srefid = e.srefid := by
  rcases mergeUpd_cases c e with h | ⟨_, _, _, _, h⟩ <;> rw [h]

theorem carryUpd_cases (e : EntryRow) :
    carryUpd e = e ∨ (e.id = none ∧ carryUpd e = { e with id := e.srefid }) := by
  unfold carryUpd
  by_cases hc : (e.id.isNone && e.srefid.isSome) = true
  · rw [if_pos hc]
    rw [Bool.and_eq_true] at hc
    exact Or.inr ⟨Option.isNone_iff_eq_none.mp hc.1, rfl⟩
  · rw [if_neg hc]
    exact Or.inl rfl

theorem carryUpd_hash (e : EntryRow) : (carryUpd e).hash = e.hash := by
  rcases carryUpd_cases e with h | ⟨_, h⟩ <;> rw [h]

theorem carryUpd_refid (e : EntryRow) : (carryUpd e).refid = e.refid := by
  rcases carryUpd_cases e with h | ⟨_, h⟩ <;> rw [h]

theorem carryUpd_srefid (e : EntryRow) : (carryUpd e).srefid = e.srefid := by
  rcases carryUpd_cases e with h | ⟨_, h⟩ <;> rw [h]

theorem identifiedUpd_cases (db : DB) (e : EntryRow) :
    identifiedUpd db e = e ∨ ∃ o ∈ db.entries, sqlEqStr o.hash e.hash = true ∧
      o.id.isSome = true ∧ identifiedUpd db e = { e with id := o.id } := by
  unfold identifiedUpd
  by_cases hr : e.refid.isNone = true
  · rw [if_pos hr]
    cases hf : db.entries.find? (fun o => sqlEqStr o.hash e.hash && o.id.isSome) with
    | none => exact Or.inl rfl
    | some o =>
      have hom := List.mem_of_find?_eq_some hf
      have hp := List.find?_some hf
      rw [Bool.and_eq_true] at hp
      exact Or.inr ⟨o, hom, hp.1, hp.2, rfl⟩
  · rw [if_neg hr]
    exact Or.inl rfl

theorem identifiedUpd_hash (db : DB) (e : EntryRow) :
    (identifiedUpd db e).hash = e.hash := by
  rcases identifiedUpd_cases db e with h | ⟨_, _, _, _, h⟩ <;> rw [h]

theorem identifiedUpd_refid (db : DB) (e : EntryRow) :
    (identifiedUpd db e).refid = e.refid := by
  rcases identifiedUpd_cases db e with h | ⟨_, _, _, _, h⟩ <;> rw [h]

theorem identifiedUpd_srefid (db : DB) (e : EntryRow) :
    (identifiedUpd db e).srefid = e.srefid := by
  rcases identifiedUpd_cases db e with h | ⟨_, _, _, _, h⟩ <;> rw [h]

theorem newUpd_cases (db : DB) (e : EntryRow) :
    newUpd db e = e ∨ ∃ h k, e.hash = some h ∧ idxOf (newHashes db) h = some k ∧
      newUpd db e = { e with id := some (nextid db + k) } := by
  unfold newUpd
  split
  next h heq =>
    split
    next k heq2 => exact Or.inr ⟨h, k, heq, heq2, rfl⟩
    next => exact Or.inl rfl
  next => exact Or.inl rfl

theorem newUpd_hash (db : DB) (e : EntryRow) : (newUpd db e).hash = e.hash := by
  rcases newUpd_cases db e with h | ⟨_, _, _, _, h⟩ <;> rw [h]

theorem newUpd_refid (db : DB) (e : EntryRow) : (newUpd db e).refid = e.refid := by
  rcases newUpd_cases db e with h | ⟨_, _, _, _, h⟩ <;> rw [h]

theorem newUpd_srefid (db : DB) (e : EntryRow) : (newUpd db e).srefid = e.srefid := by
  rcases newUpd_cases db e with h | ⟨_, _, _, _, h⟩ <;> rw [h]

theorem newUpd_pos (db : DB) (e : EntryRow) (h : String) (k : Nat)
    (hh : e.hash = some h) (hk : idxOf (newHashes db) h = some k) :
    newUpd db e = { e with id := some (nextid db + k) } := by
  unfold newUpd
  split
  next h2 heq =>
    rw [hh] at heq
    injection heq with heq
    subst heq
    split
    next k2 heq2 =>
      rw [hk] at heq2
      injection heq2 with heq2
      subst heq2
      rfl
    next heq2 =>
      rw [hk] at heq2
      exact absurd heq2 (by simp)
  next heq =>
    rw [hh] at heq
    exact absurd heq (by simp)

/-! ## Stage invariants of the resolver -/

theorem bool_true_of_ne_false {b : Bool} (h : ¬b = false) : b = true := by
  cases b with
  | false => exact absurd rfl h
  | true => rfl

theorem s2_id_none (db : DB) (sc : List (Nat × String)) :
    ∀ e ∈ (applySplit sc (resetStage db)).entries, e.id = none := by
  intro e he
  rcases List.mem_map.mp he with ⟨e1, he1, rfl⟩
  rcases List.mem_map.mp he1 with ⟨e0, he0, rfl⟩
  rw [splitUpd_id, resetUpd_id]

theorem s2_srefid_refid (db : DB) (sc : List (Nat × String)) :
    ∀ e ∈ (applySplit sc (resetStage db)).entries,
    ∀ v : Nat, e.srefid = some v → e.refid = some v := by
  intro e he v hv
  rcases List.mem_map.mp he with ⟨e1, he1, rfl⟩
  rcases List.mem_map.mp he1 with ⟨e0, he0, rfl⟩
  rcases splitUpd_srefid sc (resetUpd e0) with h | h
  · rw [h, resetUpd_srefid] at hv
    rw [splitUpd_refid, resetUpd_refid]
    exact hv
  · rw [h] at hv
    exact absurd hv (by simp)

theorem s5_back (db2 : DB) (mc : List (String × Nat)) :
    ∀ e' ∈ (applyIdentified (applyCarry (applyMerge mc db2))).entries,
    ∃ e ∈ db2.entries, e'.hash = e.hash ∧ e'.srefid = e.srefid ∧ e'.refid = e.refid := by
  intro e' he'
  rcases List.mem_map.mp he' with ⟨e4, he4, rfl⟩
  rcases List.mem_map.mp he4 with ⟨e3, he3, rfl⟩
  rcases List.mem_map.mp he3 with ⟨e2, he2, rfl⟩
  refine ⟨e2, he2, ?_, ?_, ?_⟩
  · rw [identifiedUpd_hash, carryUpd_hash, mergeUpd_hash]
  · rw [identifiedUpd_srefid, carryUpd_srefid, mergeUpd_srefid]
  · rw [identifiedUpd_refid, carryUpd_refid, mergeUpd_refid]

theorem s2_back (db : DB) (sc : List (Nat × String)) :
    ∀ e' ∈ (applySplit sc (resetStage db)).entries,
    ∃ e ∈ db.entries, e'.hash = e.hash ∧ e'.refid = e.refid := by
  intro e' he'
  rcases List.mem_map.mp he' with ⟨e1, he1, rfl⟩
  rcases List.mem_map.mp he1 with ⟨e0, he0, rfl⟩
  refine ⟨e0, he0, ?_, ?_⟩
  · rw [splitUpd_hash, resetUpd_hash]
  · rw [splitUpd_refid, resetUpd_refid]

theorem nosplits5 (db : DB) (sc : List (Nat × String)) (mc : List (String × Nat))
    (hns : nosplitsCheck (applySplit sc (resetStage db)) = true) :
    ∀ e1 ∈ (applyIdentified (applyCarry (applyMerge mc
        (applySplit sc (resetStage db))))).entries,
    ∀ e2 ∈ (applyIdentified (applyCarry (applyMerge mc
        (applySplit sc (resetStage db))))).entries,
    ∀ v : Nat, e1.srefid = some v → e2.srefid = some v →
    ∀ a b : String, e1.hash = some a → e2.hash = some b → a = b := by
  intro e1 h1 e2 h2 v hv1 hv2 a b ha hb
  obtain ⟨f1, hf1, hh1, hs1, _⟩ := s5_back _ mc e1 h1
  obtain ⟨f2, hf2, hh2, hs2, _⟩ := s5_back _ mc e2 h2
  refine nosplits_prop hns f1 hf1 f2 hf2 v ?_ ?_ a b ?_ ?_
  · rw [← hs1]; exact hv1
  · rw [← hs2]; exact hv2
  · rw [← hh1]; exact ha
  · rw [← hh2]; exact hb

theorem s5_srefid_refid (db : DB) (sc : List (Nat × String)) (mc : List (String × Nat)) :
    ∀ e ∈ (applyIdentified (applyCarry (applyMerge mc
        (applySplit sc (resetStage db))))).entries,
    ∀ v : Nat, e.srefid = some v → e.refid = some v := by
  intro e he v hv
  obtain ⟨f, hf, _, hs, hr⟩ := s5_back _ mc e he
  have := s2_srefid_refid db sc f hf v (by rw [← hs]; exact hv)
  rw [hr]
  exact this

theorem mergeChoices_lookup (R : String → String → ℚ) (db : DB)
    (mc : List (String × Nat)) (hmc : mergeChoices R db = some mc)
    {h : String} {w : Nat} (hl : (h, w) ∈ mc) : chooseMerge R db h = some w := by
  obtain ⟨x, hx, hfx⟩ := mapM_some_mem hmc (h, w) hl
  cases hcx : chooseMerge R db x with
  | none => rw [hcx] at hfx; exact absurd hfx (by simp)
  | some w2 =>
    rw [hcx] at hfx
    have hpair : (x, w2) = (h, w) := by simpa using hfx
    have hx2 : x = h := congrArg Prod.fst hpair
    have hw2 : w2 = w := congrArg Prod.snd hpair
    rw [← hx2, hcx, hw2]

theorem chooseMerge_mem_cands {R : String → String → ℚ} {db : DB} {h : String}
    {w : Nat} (hc : chooseMerge R db h = some w) : w ∈ mergeCands db h := by
  unfold chooseMerge at hc
  split at hc
  · exact absurd hc (by simp)
  · rename_i nv hnv
    split at hc
    · exact absurd hc (by simp)
    · rename_i cand hcand
      cases ham : argminFirst (fun p : Nat × ℚ => p.2) cand with
      | none => rw [ham] at hc; exact absurd hc (by simp)
      | some p =>
        rw [ham] at hc
        have hp : p.1 = w := by simpa using hc
        have hpmem := argminFirst_mem ham
        obtain ⟨t, ht, hft⟩ := mapM_some_mem hcand p hpmem
        cases hms : mergedEntryGrp db (GrpKey.byRefid t) with
        | none => rw [hms] at hft; exact absurd hft (by simp)
        | some m =>
          rw [hms] at hft
          have hpt : (t, distance R nv m) = p := by simpa using hft
          have ht1 : p.1 = t := by rw [← hpt]
          rw [← hp, ht1]
          exact ht

theorem mergeCands_entry {db : DB} {h : String} {w : Nat} (hw : w ∈ mergeCands db h) :
    ∃ e ∈ db.entries, e.hash = some h ∧ e.srefid = some w := by
  unfold mergeCands at hw
  rw [mem_dedupFirst, List.mem_map] at hw
  obtain ⟨row, hrow, hsrow⟩ := hw
  unfold mergeRows at hrow
  rw [(List.perm_insertionSort _ _).mem_iff, List.mem_flatMap] at hrow
  obtain ⟨e, he, hre⟩ := hrow
  by_cases hcond : (e.hash == some h && db.entries.any
      (fun o => sqlEqStr o.hash e.hash && sqlNeNat o.srefid e.srefid)) = true
  · rw [if_pos hcond] at hre
    rw [Bool.and_eq_true] at hcond
    have hhash : e.hash = some h := beq_iff_eq.mp hcond.1
    cases hsr : e.srefid with
    | none => rw [hsr] at hre; simp at hre
    | some sv =>
      cases hfo : fileOf db e.file_pk with
      | none => rw [hsr, hfo] at hre; simp at hre
      | some f =>
        rw [hsr, hfo] at hre
        simp only [List.mem_singleton] at hre
        refine ⟨e, he, hhash, ?_⟩
        rw [hre] at hsrow
        rw [hsr]
        exact congrArg some hsrow
  · rw [if_neg hcond] at hre
    simp at hre

theorem idTrace3 (R : String → String → ℚ) (db2 : DB) (mc : List (String × Nat))
    (hmc : mergeChoices R db2 = some mc)
    (hidn : ∀ e ∈ db2.entries, e.id = none) :
    ∀ e ∈ (applyMerge mc db2).entries, ∀ v : Nat, e.id = some v →
    ∃ w ∈ (applyMerge mc db2).entries, w.hash = e.hash ∧ w.srefid = some v := by
  intro e' he' v hid
  rcases List.mem_map.mp he' with ⟨e, he, rfl⟩
  rcases mergeUpd_cases mc e with hcase | ⟨h, w, hh, hl, heq⟩
  · rw [hcase, hidn e he] at hid
    exact absurd hid (by simp)
  · rw [heq] at hid
    have hwv : w = v := by simpa using hid
    obtain ⟨u, hu, huh, hus⟩ := mergeCands_entry
      (chooseMerge_mem_cands (mergeChoices_lookup R db2 mc hmc (lookup_mem hl)))
    refine ⟨mergeUpd mc u, List.mem_map_of_mem _ hu, ?_, ?_⟩
    · rw [mergeUpd_hash, mergeUpd_hash, huh, hh]
    · rw [mergeUpd_srefid, hus, hwv]

theorem idTrace4 (db3 : DB)
    (htr : ∀ e ∈ db3.entries, ∀ v : Nat, e.id = some v →
      ∃ w ∈ db3.entries, w.hash = e.hash ∧ w.srefid = some v) :
    ∀ e ∈ (applyCarry db3).entries, ∀ v : Nat, e.id = some v →
    ∃ w ∈ (applyCarry db3).entries, w.hash = e.hash ∧ w.srefid = some v := by
  intro e' he' v hid
  rcases List.mem_map.mp he' with ⟨e, he, rfl⟩
  rcases carryUpd_cases e with hcase | ⟨hidn, heq⟩
  · rw [hcase] at hid
    obtain ⟨w, hw, hwh, hws⟩ := htr e he v hid
    refine ⟨carryUpd w, List.mem_map_of_mem _ hw, ?_, ?_⟩
    · rw [carryUpd_hash, hwh, hcase]
    · rw [carryUpd_srefid, hws]
  · rw [heq] at hid
    have hsv : e.srefid = some v := by simpa using hid
    refine ⟨carryUpd e, List.mem_map_of_mem _ he, rfl, ?_⟩
    rw [carryUpd_srefid, hsv]

theorem idTrace5 (db4 : DB)
    (htr : ∀ e ∈ db4.entries, ∀ v : Nat, e.id = some v →
      ∃ w ∈ db4.entries, w.hash = e.hash ∧ w.srefid = some v) :
    ∀ e ∈ (applyIdentified db4).entries, ∀ v : Nat, e.id = some v →
    ∃ w ∈ (applyIdentified db4).entries, w.hash = e.hash ∧ w.srefid = some v := by
  intro e' he' v hid
  rcases List.mem_map.mp he' with ⟨e, he, rfl⟩
  rcases identifiedUpd_cases db4 e with hcase | ⟨o, ho, hoeq, hosome, heq⟩
  · rw [hcase] at hid
    obtain ⟨w, hw, hwh, hws⟩ := htr e he v hid
    refine ⟨identifiedUpd db4 w, List.mem_map_of_mem _ hw, ?_, ?_⟩
    · rw [identifiedUpd_hash, hwh, hcase]
    · rw [identifiedUpd_srefid, hws]
  · rw [heq] at hid
    have hoid : o.id = some v := by simpa using hid
    obtain ⟨w, hw, hwh, hws⟩ := htr o ho v hoid
    obtain ⟨hs, hos, hes⟩ := sqlEqStr_decode hoeq
    refine ⟨identifiedUpd db4 w, List.mem_map_of_mem _ hw, ?_, ?_⟩
    · rw [identifiedUpd_hash, identifiedUpd_hash, hwh, hos, hes]
  -- goal closed: both sides are the common hash value
    · rw [identifiedUpd_srefid, hws]

theorem idxOf_mono {l : List String} (hp : l.Pairwise strLt) {h1 h2 : String}
    {k1 k2 : Nat} (ha : idxOf l h1 = some k1) (hb : idxOf l h2 = some k2) :
    strLt h1 h2 ↔ k1 < k2 := by
  obtain ⟨hl1, hg1⟩ := idxOf_get ha
  obtain ⟨hl2, hg2⟩ := idxOf_get hb
  constructor
  · intro hlt
    rcases Nat.lt_trichotomy k1 k2 with h | h | h
    · exact h
    · exfalso
      subst h
      have hee : h1 = h2 := by
        rw [← hg1, ← hg2]
      rw [hee] at hlt
      exact strLt_irrefl _ hlt
    · exfalso
      have := List.pairwise_iff_get.mp hp ⟨k2, hl2⟩ ⟨k1, hl1⟩ (Fin.mk_lt_mk.mpr h)
      rw [hg1, hg2] at this
      exact strLt_asymm hlt this
  · intro hk
    have := List.pairwise_iff_get.mp hp ⟨k1, hl1⟩ ⟨k2, hl2⟩ (Fin.mk_lt_mk.mpr hk)
    rw [hg1, hg2] at this
    exact this

/-- C9: an entry whose only stored field value is the ENTRYTYPE row yields
no row in the hashing query of `generate_hashes`, so its hash stays NULL,
the `Entry.allhash` precondition of the resolver is false, and `assign_ids`
aborts at its first assertion. -/
theorem claimC9 (wrds : String → List String)
    (keyid : FieldMap → Multiset String → String) (chunksize : Nat)
    (R : String → String → ℚ) (db : DB) (e : EntryRow)
    (he : e ∈ db.entries) (hhash : e.hash = none)
    (honly : ∀ v ∈ db.values, v.entry_pk = e.pk → v.field = ENTRYTYPE) :
    (∃ e' ∈ (generate_hashes wrds keyid chunksize db).entries,
        e'.pk = e.pk ∧ e'.hash = none) ∧
    allhashCheck (generate_hashes wrds keyid chunksize db) = false ∧
    assign_ids R (generate_hashes wrds keyid chunksize db) = none := by
  have hntv : nonTypeValues db e.pk = [] := by
    unfold nonTypeValues
    rw [List.filter_eq_nil_iff]
    intro v hv hcontra
    rw [Bool.and_eq_true] at hcontra
    have hpk : v.entry_pk = e.pk := beq_iff_eq.mp hcontra.1
    have hfield := honly v hv hpk
    rw [hfield] at hcontra
    simp at hcontra
  have hcond : ¬((((hashWindows db chunksize).any
      (fun w => w.1 ≤ e.pk && e.pk ≤ w.2)) = true)
      ∧ nonTypeValues db e.pk ≠ []) := fun hcc => hcc.2 hntv
  have he' : e ∈ (generate_hashes wrds keyid chunksize db).entries := by
    show e ∈ db.entries.map _
    rw [List.mem_map]
    exact ⟨e, he, by rw [if_neg hcond]⟩
  have hfalse : allhashCheck (generate_hashes wrds keyid chunksize db) = false := by
    cases hall : allhashCheck (generate_hashes wrds keyid chunksize db) with
    | false => rfl
    | true =>
      obtain ⟨hx, hhx⟩ := allhash_prop hall e he'
      rw [hhash] at hhx
      exact absurd hhx (by simp)
  refine ⟨⟨e, he', rfl, hhash⟩, hfalse, ?_⟩
  unfold assign_ids
  rw [if_pos hfalse]

theorem claimC9_witness :
    (⟨1, 1, "k", some 1, none, none, none⟩ : EntryRow) ∈ dbC9.entries ∧
    ((⟨1, 1, "k", some 1, none, none, none⟩ : EntryRow)).hash = none ∧
    (∀ v ∈ dbC9.values,
        v.entry_pk = (⟨1, 1, "k", some 1, none, none, none⟩ : EntryRow).pk →
        v.field = ENTRYTYPE) ∧
    ((∃ e' ∈ (generate_hashes (fun _ => []) (fun _ _ => "") 1 dbC9).entries,
        e'.pk = (⟨1, 1, "k", some 1, none, none, none⟩ : EntryRow).pk ∧
        e'.hash = none) ∧
      allhashCheck (generate_hashes (fun _ => []) (fun _ _ => "") 1 dbC9) = false ∧
      assign_ids myRatio (generate_hashes (fun _ => []) (fun _ _ => "") 1 dbC9) = none) :=
  ⟨by decide, rfl, by decide,
    claimC9 (fun _ => []) (fun _ _ => "") 1 myRatio dbC9
      ⟨1, 1, "k", some 1, none, none, none⟩ (by decide) rfl (by decide)⟩

/-- C3: ids minted by the new-id stage are strictly greater than every
prior id (refid) present among the entries, and the remaining distinct
hashes receive them in ascending hash order. -/
theorem claimC3 (db : DB) (hall : allhashCheck db = true) :
    (∀ e ∈ db.entries, e.id = none → ∃ h k, e.hash = some h ∧
        idxOf (newHashes db) h = some k ∧
        ∀ e' ∈ (applyNewIds db).entries, e'.hash = some h →
          e'.id = some (nextid db + k)) ∧
    (∀ h k, idxOf (newHashes db) h = some k → ∀ e ∈ db.entries, ∀ r : Nat,
        e.refid = some r → r < nextid db + k) ∧
    (∀ h1 h2 k1 k2, idxOf (newHashes db) h1 = some k1 →
        idxOf (newHashes db) h2 = some k2 → (strLt h1 h2 ↔ k1 < k2)) := by
  refine ⟨?_, ?_, ?_⟩
  · intro e he hid
    obtain ⟨h, hh⟩ := allhash_prop hall e he
    have hmem : h ∈ newHashes db := (mem_newHashes db h).mpr ⟨e, he, hid, hh⟩
    obtain ⟨k, hk⟩ := idxOf_some_of_mem hmem
    refine ⟨h, k, hh, hk, ?_⟩
    intro e' he' hh'
    rcases List.mem_map.mp he' with ⟨e0, he0, rfl⟩
    have hh0 : e0.hash = some h := by rw [← newUpd_hash db e0]; exact hh'
    rw [newUpd_pos db e0 h k hh0 hk]
  · intro h k hk e he r hr
    have := maxRefid_le db e he r hr
    unfold nextid
    omega
  · intro h1 h2 k1 k2 h1k h2k
    exact idxOf_mono (newHashes_pairwise db) h1k h2k

theorem claimC3_witness :
    allhashCheck dbC3 = true ∧
    ((∀ e ∈ dbC3.entries, e.id = none → ∃ h k, e.hash = some h ∧
        idxOf (newHashes dbC3) h = some k ∧
        ∀ e' ∈ (applyNewIds dbC3).entries, e'.hash = some h →
          e'.id = some (nextid dbC3 + k)) ∧
    (∀ h k, idxOf (newHashes dbC3) h = some k → ∀ e ∈ dbC3.entries, ∀ r : Nat,
        e.refid = some r → r < nextid dbC3 + k) ∧
    (∀ h1 h2 k1 k2, idxOf (newHashes dbC3) h1 = some k1 →
        idxOf (newHashes dbC3) h2 = some k2 → (strLt h1 h2 ↔ k1 < k2))) :=
  ⟨by decide, claimC3 dbC3 (by decide)⟩

/-- C1: when `assign_ids` completes without a failed assertion, every entry
carries a non-NULL id, and two entries have equal hash exactly when they
have equal id. -/
theorem claimC1 (R : String → String → ℚ) (db db' : DB)
    (hrun : assign_ids R db = some db') :
    (∀ e ∈ db'.entries, ∃ i, e.id = some i) ∧
    (∀ e1 ∈ db'.entries, ∀ e2 ∈ db'.entries, (e1.hash = e2.hash ↔ e1.id = e2.id)) := by
  unfold assign_ids at hrun
  split at hrun
  · exact absurd hrun (by simp)
  next hallne =>
    split at hrun
    · exact absurd hrun (by simp)
    next sc hsc =>
      split at hrun
      · exact absurd hrun (by simp)
      next hnsne =>
        split at hrun
        · exact absurd hrun (by simp)
        next mc hmc =>
          split at hrun
          · exact absurd hrun (by simp)
          next hnmne =>
            split at hrun
            · exact absurd hrun (by simp)
            next hidne =>
              split at hrun
              · exact absurd hrun (by simp)
              next hoone =>
                have hdb' := (Option.some.inj hrun).symm
                subst hdb'
                have hall : allhashCheck db = true := bool_true_of_ne_false hallne
                have hns : nosplitsCheck (applySplit sc (resetStage db)) = true :=
                  bool_true_of_ne_false hnsne
                have hid := bool_true_of_ne_false hidne
                have hoo := bool_true_of_ne_false hoone
                have h5hash : ∀ e ∈ (applyIdentified (applyCarry (applyMerge mc
                    (applySplit sc (resetStage db))))).entries,
                    ∃ h, e.hash = some h := by
                  intro e he
                  obtain ⟨f, hf, hh, _, _⟩ := s5_back _ mc e he
                  obtain ⟨g, hg, hh2, _⟩ := s2_back db sc f hf
                  obtain ⟨x, hx⟩ := allhash_prop hall g hg
                  exact ⟨x, by rw [hh, hh2, hx]⟩
                have htrace := idTrace5 _ (idTrace4 _
                  (idTrace3 R _ mc hmc (s2_id_none db sc)))
                have hpart1 := allid_prop hid
                refine ⟨hpart1, ?_⟩
                intro e1 h1 e2 h2
                constructor
                · intro hheq
                  rcases List.mem_map.mp h1 with ⟨f1, hf1, rfl⟩
                  obtain ⟨x1, hx1f⟩ := h5hash f1 hf1
                  have hx1 : (newUpd (applyIdentified (applyCarry (applyMerge mc
                      (applySplit sc (resetStage db))))) f1).hash = some x1 := by
                    rw [newUpd_hash, hx1f]
                  obtain ⟨i1, hi1⟩ := hpart1 _ h1
                  obtain ⟨i2, hi2⟩ := hpart1 _ h2
                  have hx2 : e2.hash = some x1 := by rw [← hheq]; exact hx1
                  have hii := onetoone_diffid_prop hoo _ h1 e2 h2 x1 hx1 hx2
                    i1 i2 hi1 hi2
                  rw [hi1, hi2, hii]
                · intro hideq
                  rcases List.mem_map.mp h1 with ⟨f1, hf1, rfl⟩
                  rcases List.mem_map.mp h2 with ⟨f2, hf2, rfl⟩
                  obtain ⟨v, hv1⟩ := hpart1 _ (List.mem_map_of_mem _ hf1)
                  have hv2 : (newUpd (applyIdentified (applyCarry (applyMerge mc
                      (applySplit sc (resetStage db))))) f2).id = some v := by
                    rw [← hideq]
                    exact hv1
                  rw [newUpd_hash, newUpd_hash]
                  rcases newUpd_cases _ f1 with hc1 | ⟨a1, k1, hha1, hk1, heq1⟩ <;>
                    rcases newUpd_cases _ f2 with hc2 | ⟨a2, k2, hha2, hk2, heq2⟩
                  · rw [hc1] at hv1
                    rw [hc2] at hv2
                    obtain ⟨w1, hw1, hw1h, hw1s⟩ := htrace f1 hf1 v hv1
                    obtain ⟨w2, hw2, hw2h, hw2s⟩ := htrace f2 hf2 v hv2
                    obtain ⟨x1, hx1⟩ := h5hash f1 hf1
                    obtain ⟨x2, hx2⟩ := h5hash f2 hf2
                    have hx12 : x1 = x2 := nosplits5 db sc mc hns w1 hw1 w2 hw2 v
                      hw1s hw2s x1 x2 (by rw [hw1h, hx1]) (by rw [hw2h, hx2])
                    rw [hx1, hx2, hx12]
                  · rw [hc1] at hv1
                    rw [heq2] at hv2
                    have hv2' : nextid (applyIdentified (applyCarry (applyMerge mc
                        (applySplit sc (resetStage db))))) + k2 = v := by
                      simpa using hv2
                    obtain ⟨w1, hw1, _, hw1s⟩ := htrace f1 hf1 v hv1
                    have hrefid := s5_srefid_refid db sc mc w1 hw1 v hw1s
                    have hle := maxRefid_le _ w1 hw1 v hrefid
                    exfalso
                    unfold nextid at hv2'
                    omega
                  · rw [heq1] at hv1
                    rw [hc2] at hv2
                    have hv1' : nextid (applyIdentified (applyCarry (applyMerge mc
                        (applySplit sc (resetStage db))))) + k1 = v := by
                      simpa using hv1
                    obtain ⟨w2, hw2, _, hw2s⟩ := htrace f2 hf2 v hv2
                    have hrefid := s5_srefid_refid db sc mc w2 hw2 v hw2s
                    have hle := maxRefid_le _ w2 hw2 v hrefid
                    exfalso
                    unfold nextid at hv1'
                    omega
                  · rw [heq1] at hv1
                    rw [heq2] at hv2
                    have hv1' : nextid (applyIdentified (applyCarry (applyMerge mc
                        (applySplit sc (resetStage db))))) + k1 = v := by
                      simpa using hv1
                    have hv2' : nextid (applyIdentified (applyCarry (applyMerge mc
                        (applySplit sc (resetStage db))))) + k2 = v := by
                      simpa using hv2
                    have hk12 : k1 = k2 := by omega
                    rw [hk12] at hk1
                    have haa : a1 = a2 := idxOf_inj hk1 hk2
                    rw [hha1, hha2, haa]

theorem claimC1_witness :
    assign_ids myRatio dbC1 = some dbC1' ∧
    ((∀ e ∈ dbC1'.entries, ∃ i, e.id = some i) ∧
     (∀ e1 ∈ dbC1'.entries, ∀ e2 ∈ dbC1'.entries,
        (e1.hash = e2.hash ↔ e1.id = e2.id))) :=
  ⟨by decide, claimC1 myRatio dbC1 dbC1' (by decide)⟩

theorem mrowLE_srefid {a b : MRow} (h : mrowLE a b) : b.srefid ≤ a.srefid := by
  simp only [mrowLE, keyLE] at h
  rw [lltInt_cons_cons] at h
  by_cases hxy : (-(b.srefid : Int)) < (-(a.srefid : Int))
  · rw [if_pos hxy] at h
    exact absurd h (by simp)
  · omega

theorem mergeCands_pairwise (db : DB) (h : String) :
    (mergeCands db h).Pairwise (fun a b : Nat => b < a) := by
  unfold mergeCands
  have hsorted : (mergeRows db h).Pairwise mrowLE := by
    unfold mergeRows
    exact List.sorted_insertionSort _ _
  have hmap : ((mergeRows db h).map (fun x => x.srefid)).Pairwise
      (fun a b : Nat => b ≤ a) := by
    rw [List.pairwise_map]
    exact hsorted.imp (fun hab => mrowLE_srefid hab)
  have hsub := hmap.sublist (dedupFirst_sublist ((mergeRows db h).map (fun x => x.srefid)))
  have hnodup := dedupFirst_nodup ((mergeRows db h).map (fun x => x.srefid))
  exact (hsub.and hnodup).imp (fun hab => lt_of_le_of_ne hab.1 (fun hbe => hab.2 hbe.symm))

theorem mapM_pair_fst {α β γ : Type} {F : α → Option β} {G : α → β → γ} :
    ∀ {l : List α} {l2 : List (α × γ)},
    l.mapM (fun s => (F s).map (fun m => (s, G s m))) = some l2 →
    l2.map Prod.fst = l := by
  intro l
  induction l with
  | nil =>
    intro l2 h
    have h0 : ([] : List α).mapM (fun s => (F s).map (fun m => (s, G s m)))
        = some [] := rfl
    rw [h0] at h
    rw [← Option.some.inj h]
    rfl
  | cons x xs ih =>
    intro l2 h
    rw [List.mapM_cons] at h
    cases hfx : F x with
    | none => rw [hfx] at h; exact absurd h (by simp)
    | some b =>
      rw [hfx] at h
      cases hrec : xs.mapM (fun s => (F s).map (fun m => (s, G s m))) with
      | none => rw [hrec] at h; exact absurd h (by simp)
      | some tl =>
        rw [hrec] at h
        have hl2 : l2 = (x, G x b) :: tl := by simpa using h.symm
        rw [hl2, List.map_cons, ih hrec]

theorem dbC2_views :
    mergedEntryGrp dbC2 (GrpKey.byHash "h") = some [("title", "x"), ("src", "a"), ("srctrickle", "a#k")] ∧
    mergedEntryGrp dbC2 (GrpKey.byRefid 1) = some [("title", "x"), ("src", "a"), ("srctrickle", "a#k")] ∧
    mergedEntryGrp dbC2 (GrpKey.byRefid 2) = some [("title", "x"), ("src", "a"), ("srctrickle", "a#k")] ∧
    mergeCands dbC2 "h" = [2, 1] := by
  refine ⟨by decide, by decide, by decide, by decide⟩

theorem chooseMerge_dbC2 : chooseMerge myRatio dbC2 "h" = some 2 := by
  obtain ⟨hnv, hm1, hm2, hcands⟩ := dbC2_views
  have hmapm : (mergeCands dbC2 "h").mapM (fun s =>
      (mergedEntryGrp dbC2 (GrpKey.byRefid s)).map
        (fun m => (s, distance myRatio [("title", "x"), ("src", "a"), ("srctrickle", "a#k")] m))) =
      some [(2, distance myRatio [("title", "x"), ("src", "a"), ("srctrickle", "a#k")] [("title", "x"), ("src", "a"), ("srctrickle", "a#k")]),
            (1, distance myRatio [("title", "x"), ("src", "a"), ("srctrickle", "a#k")] [("title", "x"), ("src", "a"), ("srctrickle", "a#k")])] := by
    rw [hcands]
    have := mapM_eq_map_of_all_some
      (f := fun s => (mergedEntryGrp dbC2 (GrpKey.byRefid s)).map
        (fun m => (s, distance myRatio [("title", "x"), ("src", "a"), ("srctrickle", "a#k")] m)))
      (g := fun s => (s, distance myRatio [("title", "x"), ("src", "a"), ("srctrickle", "a#k")] [("title", "x"), ("src", "a"), ("srctrickle", "a#k")]))
      (l := [2, 1]) ?_
    · simpa using this
    · intro x hx
      rcases List.mem_cons.mp hx with rfl | hx2
      · show (mergedEntryGrp dbC2 (GrpKey.byRefid 2)).map
            (fun m => ((2 : Nat), distance myRatio [("title", "x"), ("src", "a"), ("srctrickle", "a#k")] m)) =
          some (2, distance myRatio [("title", "x"), ("src", "a"), ("srctrickle", "a#k")] [("title", "x"), ("src", "a"), ("srctrickle", "a#k")])
        rw [hm2]
        rfl
      · rcases List.mem_cons.mp hx2 with rfl | hx3
        · show (mergedEntryGrp dbC2 (GrpKey.byRefid 1)).map
              (fun m => ((1 : Nat), distance myRatio [("title", "x"), ("src", "a"), ("srctrickle", "a#k")] m)) =
            some (1, distance myRatio [("title", "x"), ("src", "a"), ("srctrickle", "a#k")] [("title", "x"), ("src", "a"), ("srctrickle", "a#k")])
          rw [hm1]
          rfl
        · exact absurd hx3 (by simp)
  have harg : argminFold (fun p : Nat × ℚ => p.2)
      (2, distance myRatio [("title", "x"), ("src", "a"), ("srctrickle", "a#k")] [("title", "x"), ("src", "a"), ("srctrickle", "a#k")])
      [(1, distance myRatio [("title", "x"), ("src", "a"), ("srctrickle", "a#k")] [("title", "x"), ("src", "a"), ("srctrickle", "a#k")])] =
      (2, distance myRatio [("title", "x"), ("src", "a"), ("srctrickle", "a#k")] [("title", "x"), ("src", "a"), ("srctrickle", "a#k")]) := by
    show (if ((1 : Nat), distance myRatio [("title", "x"), ("src", "a"), ("srctrickle", "a#k")] [("title", "x"), ("src", "a"), ("srctrickle", "a#k")]).2 <
        ((2 : Nat), distance myRatio [("title", "x"), ("src", "a"), ("srctrickle", "a#k")] [("title", "x"), ("src", "a"), ("srctrickle", "a#k")]).2 then
        ((1 : Nat), distance myRatio [("title", "x"), ("src", "a"), ("srctrickle", "a#k")] [("title", "x"), ("src", "a"), ("srctrickle", "a#k")])
      else ((2 : Nat), distance myRatio [("title", "x"), ("src", "a"), ("srctrickle", "a#k")] [("title", "x"), ("src", "a"), ("srctrickle", "a#k")])) =
      ((2 : Nat), distance myRatio [("title", "x"), ("src", "a"), ("srctrickle", "a#k")] [("title", "x"), ("src", "a"), ("srctrickle", "a#k")])
    rw [if_neg (lt_irrefl (distance myRatio [("title", "x"), ("src", "a"), ("srctrickle", "a#k")] [("title", "x"), ("src", "a"), ("srctrickle", "a#k")]))]
  unfold chooseMerge
  rw [hnv]
  show (match (mergeCands dbC2 "h").mapM (fun s =>
      (mergedEntryGrp dbC2 (GrpKey.byRefid s)).map
        (fun m => (s, distance myRatio [("title", "x"), ("src", "a"), ("srctrickle", "a#k")] m))) with
    | none => none
    | some cand =>
      (argminFirst (fun p : Nat × ℚ => p.2) cand).map (fun p => p.1)) = some 2
  rw [hmapm]
  show (some (argminFold (fun p : Nat × ℚ => p.2)
      (2, distance myRatio [("title", "x"), ("src", "a"), ("srctrickle", "a#k")] [("title", "x"), ("src", "a"), ("srctrickle", "a#k")])
      [(1, distance myRatio [("title", "x"), ("src", "a"), ("srctrickle", "a#k")] [("title", "x"), ("src", "a"), ("srctrickle", "a#k")])])).map
      (fun p => p.1) = some 2
  rw [harg]
  rfl

/-- C2 (counterexample): a hash group whose two candidate split ids 1 and 2
have identical merged views — hence equal distance to the hash-based view —
and whose candidate list is srefid-descending `[2, 1]`: the implementation
resolves the tie to 2, the HIGHER split id, not the lower one claimed by
the spec. -/
theorem claimC2_counterexample :
    mergeCands dbC2 "h" = [2, 1] ∧
    (∃ nv, mergedEntryGrp dbC2 (GrpKey.byHash "h") = some nv ∧
      mergedEntryGrp dbC2 (GrpKey.byRefid 1) = some nv ∧
      mergedEntryGrp dbC2 (GrpKey.byRefid 2) = some nv) ∧
    chooseMerge myRatio dbC2 "h" = some 2 :=
  ⟨dbC2_views.2.2.2, ⟨[("title", "x"), ("src", "a"), ("srctrickle", "a#k")], dbC2_views.1, dbC2_views.2.1, dbC2_views.2.2.1⟩,
    chooseMerge_dbC2⟩

/-- C2 (amended): the merge decision for a hash group is the candidate
split id nearest to the hash-based merged view, and among equidistant
candidates the FIRST in the srefid-descending candidate order — that is,
the highest tied split id — wins. -/
theorem claimC2_amended (R : String → String → ℚ) (db : DB) (h : String) (w : Nat)
    (hcm : chooseMerge R db h = some w) :
    ∃ nv cand dw,
      mergedEntryGrp db (GrpKey.byHash h) = some nv ∧
      (mergeCands db h).mapM (fun s => (mergedEntryGrp db (GrpKey.byRefid s)).map
          (fun m => (s, distance R nv m))) = some cand ∧
      (w, dw) ∈ cand ∧
      (∀ p ∈ cand, dw ≤ p.2) ∧
      (∀ p ∈ cand, p.2 = dw → p.1 ≤ w) := by
  unfold chooseMerge at hcm
  split at hcm
  · exact absurd hcm (by simp)
  next nv hnv =>
    split at hcm
    · exact absurd hcm (by simp)
    next cand hcand =>
      cases ham : argminFirst (fun p : Nat × ℚ => p.2) cand with
      | none => rw [ham] at hcm; exact absurd hcm (by simp)
      | some p =>
        rw [ham] at hcm
        have hpw : p.1 = w := by simpa using hcm
        have hpeta : p = (w, p.2) := by
          rw [← hpw]
        have hpairw : cand.Pairwise (fun x y : Nat × ℚ => y.1 < x.1) := by
          have hfst := mapM_pair_fst hcand
          have := mergeCands_pairwise db h
          rw [← hfst, List.pairwise_map] at this
          exact this
        obtain ⟨l1, l2, hsplit, hstrict, hle⟩ := argminFirst_split ham
        refine ⟨nv, cand, p.2, hnv, hcand, ?_, argminFirst_min ham, ?_⟩
        · rw [← hpeta]
          exact argminFirst_mem ham
        · intro q hq hqd
          rw [hsplit] at hq hpairw
          rcases List.mem_append.mp hq with hq1 | hq1
          · exfalso
            have := hstrict q hq1
            rw [hqd] at this
            exact lt_irrefl _ this
          · rcases List.mem_cons.mp hq1 with rfl | hq2
            · rw [hpw]
            · have := (List.pairwise_append.mp hpairw).2.1
              rw [List.pairwise_cons] at this
              have hql := this.1 q hq2
              rw [hpw] at hql
              exact le_of_lt hql

theorem claimC2_amended_witness :
    chooseMerge myRatio dbC2 "h" = some 2 ∧
    (∃ nv cand dw,
      mergedEntryGrp dbC2 (GrpKey.byHash "h") = some nv ∧
      (mergeCands dbC2 "h").mapM (fun s =>
          (mergedEntryGrp dbC2 (GrpKey.byRefid s)).map
          (fun m => (s, distance myRatio nv m))) = some cand ∧
      (2, dw) ∈ cand ∧
      (∀ p ∈ cand, dw ≤ p.2) ∧
      (∀ p ∈ cand, p.2 = dw → p.1 ≤ 2)) :=
  ⟨chooseMerge_dbC2, claimC2_amended myRatio dbC2 "h" 2 chooseMerge_dbC2⟩

/-! ## The onetoone check -/

theorem sqlNeNat_decode {a b : Option Nat} (h : sqlNeNat a b = true) :
    ∃ x y, a = some x ∧ b = some y ∧ x ≠ y := by
  cases a with
  | none => simp [sqlNeNat] at h
  | some x =>
    cases b with
    | none => simp [sqlNeNat] at h
    | some y =>
      have : x != y := h
      exact ⟨x, y, rfl, rfl, bne_iff_ne.mp this⟩

theorem sqlNeStr_decode {a b : Option String} (h : sqlNeStr a b = true) :
    ∃ x y, a = some x ∧ b = some y ∧ x ≠ y := by
  cases a with
  | none => simp [sqlNeStr] at h
  | some x =>
    cases b with
    | none => simp [sqlNeStr] at h
    | some y =>
      have : x != y := h
      exact ⟨x, y, rfl, rfl, bne_iff_ne.mp this⟩

set_option maxRecDepth 8192 in
/-- The NUMERIC-affinity comparison on concrete inputs, matching the
behaviour of SQLite (verified against sqlite3): non-canonical numerals
convert and match, non-numeric text never does, and a store pairing id 5
with hash "x" and id 9 with hash "05" fails `onetoone` through the buggy
disjunct even though no two rows share a hash. -/
theorem idEqHash_affinity_cases :
    idEqHash (some 5) (some "5") = true ∧
    idEqHash (some 5) (some "05") = true ∧
    idEqHash (some 5) (some "5.0") = true ∧
    idEqHash (some 5) (some "+5") = true ∧
    idEqHash (some 5) (some " 5 ") = true ∧
    idEqHash (some 5) (some "5e0") = true ∧
    idEqHash (some 5) (some ".5e1") = true ∧
    idEqHash (some 5) (some "4.9999999999999999") = true ∧
    idEqHash (some 0) (some "-0.0") = true ∧
    idEqHash (some 5) (some "x") = false ∧
    idEqHash (some 5) (some "0x5") = false ∧
    idEqHash (some 5) (some "") = false ∧
    idEqHash (some 5) (some "-5") = false ∧
    onetooneCheck
      { files := [⟨1, "a", 1, 1, 0⟩],
        entries := [⟨1, 1, "k1", some 1, some "x", none, some 5⟩,
                    ⟨2, 1, "k2", some 2, some "05", none, some 9⟩],
        values := [] } = false := by
  decide

/-- C8 (counterexample): a store in which no two entries share a hash while
differing in id, yet `onetoone` is false — the buggy second comparison
fires because one entry's id 5 equals another entry's hash "5" under
NUMERIC affinity. -/
theorem claimC8_counterexample :
    (∀ e1 ∈ dbC8.entries, ∀ e2 ∈ dbC8.entries, e1.hash = e2.hash → e1.id = e2.id) ∧
    onetooneCheck dbC8 = false :=
  ⟨by decide, by decide⟩

/-- C8 (amended): provided no entry's differing hash is a well-formed
numeric literal that SQLite's NUMERIC affinity converts to the value of
another entry's id (`idEqHash` — matching also non-canonical numerals such
as "05" or "5.0"), `onetoone` is true exactly when no two entries share a
hash while differing in (non-NULL) id; without that proviso the
right-to-left direction fails, and `onetoone` says nothing about two
different-hash entries sharing an id. -/
theorem claimC8_amended (db : DB)
    (hside : ∀ e ∈ db.entries, ∀ o ∈ db.entries,
        o.hash ≠ e.hash → idEqHash o.id e.hash = false) :
    (onetooneCheck db = true ↔
      ∀ e1 ∈ db.entries, ∀ e2 ∈ db.entries, ∀ h : String,
        e1.hash = some h → e2.hash = some h →
        ∀ a b : Nat, e1.id = some a → e2.id = some b → a = b) := by
  constructor
  · exact fun hc => onetoone_diffid_prop hc
  · intro hgood
    unfold onetooneCheck
    rw [Bool.not_eq_true']
    rw [List.any_eq_false]
    intro e he
    intro hbad
    rw [List.any_eq_true] at hbad
    obtain ⟨o, ho, hp⟩ := hbad
    rw [Bool.or_eq_true] at hp
    rcases hp with hp | hp
    · rw [Bool.and_eq_true] at hp
      obtain ⟨x, hox, hex⟩ := sqlEqStr_decode hp.1
      obtain ⟨a, b, hoa, heb, hab⟩ := sqlNeNat_decode hp.2
      exact hab (hgood o ho e he x hox hex a b hoa heb)
    · rw [Bool.and_eq_true] at hp
      obtain ⟨y, z, hoy, hez, hyz⟩ := sqlNeStr_decode hp.2
      have hneq : o.hash ≠ e.hash := by
        rw [hoy, hez]
        intro hcc
        exact hyz (Option.some.inj hcc)
      have := hside e he o ho hneq
      rw [hp.1] at this
      exact absurd this (by simp)

theorem claimC8_amended_witness :
    (∀ e ∈ dbC8w.entries, ∀ o ∈ dbC8w.entries,
        o.hash ≠ e.hash → idEqHash o.id e.hash = false) ∧
    (onetooneCheck dbC8w = true ↔
      ∀ e1 ∈ dbC8w.entries, ∀ e2 ∈ dbC8w.entries, ∀ h : String,
        e1.hash = some h → e2.hash = some h →
        ∀ a b : Nat, e1.id = some a → e2.id = some b → a = b) :=
  ⟨by decide, claimC8_amended dbC8w (by decide)⟩

end BibfilesDb
